import Mathlib

/-!
Verification of the graph-dependency and graph-rewrite core of
`roofit/roofitcore/src/NormalizationHelpers.cxx`.

Nodes are identified by stable `Nat` keys (modelling `RooFit::Detail::DataKey`,
i.e. stable object addresses).  A node's capability surface (`RooAbsArg` flags
and downcast results) is a record of booleans, and the graph is an association
list from keys to node records together with the two virtual-dispatch
collaborators used by the source: `isValueServer` (an edge property) and
`fillNormSetForServer` (a per-edge normalization-set override).
-/

namespace NormHelpers

/-- Capability surface of one computation-graph node, as queried by the source:
its direct server (dependency) list and the flags corresponding to
`dynamic_cast<RooAbsPdf*>`, `dynamic_cast<RooAbsCachedPdf*>`,
`selfNormalized()`, `isDerived()` and `isFundamental()`. -/
structure NodeInfo where
  servers : List Nat
  isPdf : Bool
  isCachedPdf : Bool
  selfNormalized : Bool
  isDerived : Bool
  isFundamental : Bool
  deriving DecidableEq, Repr

/-- A computation graph: node records keyed by identity, plus the two
virtual-dispatch collaborators.  `valueEdge s c` models
`s->isValueServer(c)`; `fillNormSetForServer a ns s` models
`a.fillNormSetForServer(ns, s)` returning an optional override set. -/
structure Graph where
  nodes : List (Nat × NodeInfo)
  valueEdge : Nat → Nat → Bool
  fillNormSetForServer : Nat → List Nat → Nat → Option (List Nat)

/-- Association-list lookup by key (models `std::map::find` /
`unordered_map::find` on identity keys). -/
def alookup {β : Type} : List (Nat × β) → Nat → Option β
  | [], _ => none
  | p :: rest, a => if p.1 = a then some p.2 else alookup rest a

def Graph.infoOf (g : Graph) (n : Nat) : Option NodeInfo := alookup g.nodes n

def Graph.serversOf (g : Graph) (n : Nat) : List Nat :=
  ((g.infoOf n).map NodeInfo.servers).getD []

def Graph.isPdfN (g : Graph) (n : Nat) : Bool :=
  ((g.infoOf n).map NodeInfo.isPdf).getD false

def Graph.isCachedPdfN (g : Graph) (n : Nat) : Bool :=
  ((g.infoOf n).map NodeInfo.isCachedPdf).getD false

def Graph.selfNormalizedN (g : Graph) (n : Nat) : Bool :=
  ((g.infoOf n).map NodeInfo.selfNormalized).getD false

def Graph.isDerivedN (g : Graph) (n : Nat) : Bool :=
  ((g.infoOf n).map NodeInfo.isDerived).getD false

def Graph.isFundamentalN (g : Graph) (n : Nat) : Bool :=
  ((g.infoOf n).map NodeInfo.isFundamental).getD false

/-- All identities mentioned by the graph: node keys and server entries. -/
def Graph.allIds (g : Graph) : List Nat :=
  g.nodes.flatMap (fun p => p.1 :: p.2.servers)

/-- An upper bound on every identity mentioned by the graph. -/
def Graph.maxId (g : Graph) : Nat := g.allIds.foldr max 0

/-- Direct dependency edge: `b` is a direct server of `a`. -/
def EdgeAll (g : Graph) (a b : Nat) : Prop := b ∈ g.serversOf a

/-- `b` is reachable from `a` by zero or more server edges. -/
def ReachAll (g : Graph) : Nat → Nat → Prop :=
  Relation.ReflTransGen (EdgeAll g)

/-- Well-formedness: node keys are distinct and every server entry is itself a
registered node (in the modelled C++ every server pointer is a live object). -/
def GraphWF (g : Graph) : Prop :=
  (g.nodes.map Prod.fst).Nodup ∧
    ∀ p ∈ g.nodes, ∀ s ∈ p.2.servers, s ∈ g.nodes.map Prod.fst

/-- Acyclicity evidence: a rank function strictly decreasing along server
edges (the source assumes the computation graph is a DAG). -/
def RankedG (g : Graph) (rk : Nat → Nat) : Prop :=
  ∀ p ∈ g.nodes, ∀ s ∈ p.2.servers, rk s < rk p.1

/-- Bounded reachability: `reachN g fuel a b` is true iff some server-edge
path of length at most `fuel` leads from `a` to `b`. -/
def reachN (g : Graph) : Nat → Nat → Nat → Bool
  | 0, a, b => a == b
  | fuel + 1, a, b => a == b || (g.serversOf a).any (fun s => reachN g fuel s b)

/-! ## GraphChecker -/

/-- Modelled from the spec: the key set of the `GraphChecker` server-list map
is produced by `RooAbsArg::treeNodeServerList` (branch and leaf nodes, not
value-only, recursing also into non-derived nodes), whose body is not among
the sources.  Per the spec's data model (§3 ServerList, §4.1) it collects
every node reachable from the top node via zero or more server edges; here
that set is computed as a bounded-reachability filter over the graph's keys.
The values (per-node direct-server lists, sorted and deduplicated) follow the
source of the `GraphChecker` constructor. -/
def buildServerLists (g : Graph) (fuel top : Nat) : List (Nat × List Nat) :=
  let cand := (top :: g.nodes.map Prod.fst).dedup
  (cand.filter (fun n => reachN g fuel top n)).map
    (fun n => (n, ((g.serversOf n).insertionSort (· ≤ ·)).dedup))

/-- The memoization table `_results` of `GraphChecker`. -/
abbrev Memo := List ((Nat × Nat) × Bool)

def memoFind (m : Memo) (p : Nat × Nat) : Option Bool :=
  match m with
  | [] => none
  | q :: rest => if q.1 = p then some q.2 else memoFind rest p

/-- `std::map::emplace`: inserts only if the key is absent. -/
def memoInsert (m : Memo) (p : Nat × Nat) (b : Bool) : Memo :=
  if (memoFind m p).isSome then m else (p, b) :: m

/-- The data of the conflicting-normalization error message, as assembled by
the source: the conflicting node, the set demanded by the current path, the
parent currently requesting it, and the previously recorded set.  The first
requester does not appear: the message refers to it only as the fixed text
"other client". -/
structure ConflictError where
  server : Nat
  requestedSet : List Nat
  requestedBy : Nat
  firstSet : List Nat
  deriving DecidableEq, Repr

inductive Err where
  | fuelOut
  | missingKey
  | conflict (e : ConflictError)
  | findFail
  | missingNormSet
  deriving DecidableEq, Repr

/-- The recursion over `serverList` inside `GraphChecker::dependsOn`:
each sub-result is `emplace`d into the memo table and the loop
short-circuits on the first `true`. -/
def depLoop (step : Nat → Memo → Except Err (Bool × Memo)) (arg testArg : Nat) :
    List Nat → Memo → Except Err (Bool × Memo)
  | [], memo => .ok (false, memoInsert memo (arg, testArg) false)
  | s :: rest, memo =>
    match step s memo with
    | .error e => .error e
    | .ok (t, m1) =>
      let m2 := memoInsert m1 (s, testArg) t
      if t then .ok (true, m2) else depLoop step arg testArg rest m2

/-- `GraphChecker::dependsOn`, translated from the source: memo lookup, then
the `arg == testArg` check, then the `_serverLists.at(arg)` lookup (whose
failure is the `missingKey` error), then direct membership, then the
recursion.  `fuel` bounds the recursion depth (the C++ recursion terminates
because the graph is assumed acyclic). -/
def dependsOnAux (sl : List (Nat × List Nat)) :
    Nat → Nat → Nat → Memo → Except Err (Bool × Memo)
  | 0, _, _, _ => .error .fuelOut
  | fuel + 1, arg, testArg, memo =>
    match memoFind memo (arg, testArg) with
    | some v => .ok (v, memo)
    | none =>
      if arg = testArg then .ok (true, memo)
      else
        match alookup sl arg with
        | none => .error .missingKey
        | some serverList =>
          if testArg ∈ serverList then
            .ok (true, memoInsert memo (arg, testArg) true)
          else
            depLoop (fun s m => dependsOnAux sl fuel s testArg m) arg testArg
              serverList memo

/-! ## Normalization-set propagation -/

/-- State threaded through `treeNodeServerListAndNormSets`: the visited node
list (`RooArgSet nodes`, insertion order with silent deduplication), the
per-node normalization sets (`normSets`), and an instrumentation trace
recording every descent into a node (each call that passes the entry guard),
used to observe the visit-once discipline. -/
structure PropSt where
  list : List Nat
  normSets : List (Nat × List Nat)
  trace : List Nat
  deriving DecidableEq, Repr

/-- `RooAbsCollection::add` with silent deduplication: append if absent. -/
def addOnce (l : List Nat) (a : Nat) : List Nat := if a ∈ l then l else l ++ [a]

/-- The loop over `arg.servers()` inside `treeNodeServerListAndNormSets`:
skip non-value servers, sort a per-edge override set if present, check an
already-recorded normalization set for conflicts (`size` mismatch or
`hasSameLayout` failure), and otherwise recurse via `step`. -/
def propLoop (step : Nat → List Nat → PropSt → Except Err PropSt)
    (g : Graph) (arg : Nat) (normSet : List Nat) :
    List Nat → PropSt → Except Err PropSt
  | [], st => .ok st
  | server :: rest, st =>
    if g.valueEdge server arg = false then propLoop step g arg normSet rest st
    else
      let serverNormSet :=
        match g.fillNormSetForServer arg normSet server with
        | some l => l.insertionSort (· ≤ ·)
        | none => normSet
      match alookup st.normSets server with
      | some found =>
        if found.length ≠ serverNormSet.length ∨ found ≠ serverNormSet then
          .error (.conflict (.mk server serverNormSet arg found))
        else propLoop step g arg normSet rest st
      | none =>
        match step server serverNormSet st with
        | .error e => .error e
        | .ok st' => propLoop step g arg normSet rest st'

/-- The state updates performed on entry into a node: add it to the visited
list (and to the descent trace), and record the current normalization set if
the node is a pdf. -/
def entrySt (g : Graph) (arg : Nat) (normSet : List Nat) (st : PropSt) : PropSt :=
  let st1 : PropSt := { st with list := addOnce st.list arg, trace := st.trace ++ [arg] }
  if g.isPdfN arg then { st1 with normSets := st1.normSets ++ [(arg, normSet)] }
  else st1

/-- `treeNodeServerListAndNormSets`, translated from the source: entry guard
on `normSets`, addition of `arg` to the visited list, recording the
normalization set for pdf nodes, and recursion into the value servers of
derived non-fundamental nodes.  The conflicting-set error carries the
conflicting node, the set demanded by the current path, the currently
requesting parent, and the previously recorded set — exactly the data that
enters the source's error message (the first requester appears there only as
the fixed text "other client").  `fuel` bounds the recursion depth. -/
def treeNodeServerListAndNormSets (g : Graph) :
    Nat → Nat → List Nat → PropSt → Except Err PropSt
  | 0, _, _, _ => .error .fuelOut
  | fuel + 1, arg, normSet, st =>
    if (alookup st.normSets arg).isSome then .ok st
    else
      if g.isDerivedN arg = true ∧ g.isFundamentalN arg = false then
        propLoop (fun server sns s => treeNodeServerListAndNormSets g fuel server sns s)
          g arg normSet (g.serversOf arg) (entrySt g arg normSet st)
      else .ok (entrySt g arg normSet st)

/-! ## Narrowing of the recorded normalization sets -/

/-- `nodes.find(*narg)`: lookup of the canonical instance in the visited
list.  A failed lookup models the nullptr dereference the source would
perform in that case. -/
def findIn (visited : List Nat) (v : Nat) : Option Nat :=
  if v ∈ visited then some v else none

/-- The inner narrowing loop over one recorded normalization set: keep each
variable the node depends on, represented by its canonical instance from the
visited list.  The checker's memo table is threaded through the
`dependsOn` calls. -/
def filterNorm (sl : List (Nat × List Nat)) (fuel : Nat) (visited : List Nat)
    (n : Nat) : List Nat → Memo → Except Err (List Nat × Memo)
  | [], memo => .ok ([], memo)
  | v :: vs, memo =>
    match dependsOnAux sl fuel n v memo with
    | .error e => .error e
    | .ok (t, memo1) =>
      match filterNorm sl fuel visited n vs memo1 with
      | .error e => .error e
      | .ok (vs', memo2) =>
        if t then
          match findIn visited v with
          | none => .error .findFail
          | some v' => .ok (v' :: vs', memo2)
        else .ok (vs', memo2)

/-- The narrowing pass over all recorded normalization sets (the loop over
`normSets` after the traversal): empty sets are left unchanged, non-empty
sets are replaced by their dependency-filtered version. -/
def narrowLoop (sl : List (Nat × List Nat)) (fuel : Nat) (visited : List Nat) :
    List (Nat × List Nat) → Memo → Except Err (List (Nat × List Nat) × Memo)
  | [], memo => .ok ([], memo)
  | (n, s) :: rest, memo =>
    if s = [] then
      match narrowLoop sl fuel visited rest memo with
      | .error e => .error e
      | .ok (rest', memo') => .ok ((n, s) :: rest', memo')
    else
      match filterNorm sl fuel visited n s memo with
      | .error e => .error e
      | .ok (s', memo1) =>
        match narrowLoop sl fuel visited rest memo1 with
        | .error e => .error e
        | .ok (rest', memo') => .ok ((n, s') :: rest', memo')

/-! ## Graph rewrite -/

/-- The `RooNormalizedPdf` wrapper created for original node `o` and
normalization set `cns`.  Modelled from the spec: the wrapper owns a
reference to the original node and the narrowed normalization set (its
construction is outside the sources), so its server list is the original
node followed by the set's variables; it is pdf-like, not of the cached
kind, and already normalized. -/
def wrapperInfo (o : Nat) (cns : List Nat) : NodeInfo :=
  { servers := o :: cns, isPdf := true, isCachedPdf := false,
    selfNormalized := true, isDerived := true, isFundamental := false }

/-- `replaceArg`'s client redirection, translated from the source: every
client of `oldA` that is contained in the visited set (`containsInstance`)
and is not a `RooAbsCachedPdf` has its reference to `oldA` replaced by
`newA`.  `RooAbsArg::redirectServers` itself is outside the sources;
modelled from the spec, redirection replaces the occurrences of the original
in the client's server list by the replacement (the source's transient
`ORIGNAME:` attribute only implements this matching by name and is subsumed
by the identity keys of this model). -/
def redirectFun (visited : List Nat) (oldA newA : Nat) (p : Nat × NodeInfo) :
    Nat × NodeInfo :=
  if p.1 ∈ visited ∧ p.2.isCachedPdf = false ∧ oldA ∈ p.2.servers then
    (p.1, { p.2 with servers := p.2.servers.map (fun s => if s = oldA then newA else s) })
  else p

def redirectAll (visited : List Nat) (oldA newA : Nat) (g : Graph) : Graph :=
  { g with nodes := g.nodes.map (redirectFun visited oldA newA) }

/-- State of the rewrite loop: the (mutated) graph, the replacement ledger
(`replacedArgs` and `newArgs`, index-aligned), and an instrumentation trace
of the `pdf->getVal(currNormSet)` cache-materialization side effects. -/
structure RewSt where
  graph : Graph
  replacedArgs : List Nat
  newArgs : List Nat
  evalTrace : List (Nat × List Nat)

/-- The rewrite loop over the visited nodes, translated from the source:
for every pdf node, read its (narrowed) normalization set (`normSets.at`,
whose failure is `missingNormSet`); skip empty sets; record the
`getVal(currNormSet)` side effect; skip self-normalized non-cached pdfs;
otherwise create the wrapper (with identity `base + n`, fresh by
construction), redirect the qualifying clients, and append to the ledger. -/
def rewriteLoop (visited : List Nat) (ns : List (Nat × List Nat)) (base : Nat) :
    List Nat → RewSt → Except Err RewSt
  | [], st => .ok st
  | n :: rest, st =>
    if st.graph.isPdfN n = false then rewriteLoop visited ns base rest st
    else
      match alookup ns n with
      | none => .error .missingNormSet
      | some currNormSet =>
        if currNormSet = [] then rewriteLoop visited ns base rest st
        else
          let st1 : RewSt := { st with evalTrace := st.evalTrace ++ [(n, currNormSet)] }
          if st.graph.selfNormalizedN n = true ∧ st.graph.isCachedPdfN n = false then
            rewriteLoop visited ns base rest st1
          else
            let w := base + n
            let g1 : Graph := { st1.graph with nodes := st1.graph.nodes ++ [(w, wrapperInfo n currNormSet)] }
            let g2 : Graph := redirectAll visited n w g1
            rewriteLoop visited ns base rest
              { graph := g2, replacedArgs := st1.replacedArgs ++ [n],
                newArgs := st1.newArgs ++ [w], evalTrace := st1.evalTrace }

/-- Result of `unfoldIntegrals`: the rewritten graph, the visited list, the
recorded normalization sets before and after narrowing, the replacement
ledger, and the two instrumentation traces. -/
structure UnfoldOut where
  graph : Graph
  visited : List Nat
  preNormSets : List (Nat × List Nat)
  normSets : List (Nat × List Nat)
  replacedArgs : List Nat
  newArgs : List Nat
  evalTrace : List (Nat × List Nat)
  trace : List Nat

/-- `unfoldIntegrals`, translated from the source: the empty-set
short-circuit, the `GraphChecker` construction, the sorting of the caller's
normalization set, the propagation traversal, the narrowing pass, and the
rewrite loop.  Wrapper identities start at `g.maxId + 1`, modelling fresh
object addresses. -/
def unfoldIntegrals (g : Graph) (top : Nat) (normSet : List Nat) (fuel : Nat) :
    Except Err UnfoldOut :=
  if normSet = [] then
    .ok { graph := g, visited := [], preNormSets := [], normSets := [],
          replacedArgs := [], newArgs := [], evalTrace := [], trace := [] }
  else
    let sl := buildServerLists g fuel top
    let sorted := normSet.insertionSort (· ≤ ·)
    match treeNodeServerListAndNormSets g fuel top sorted ⟨[], [], []⟩ with
    | .error e => .error e
    | .ok st =>
      match narrowLoop sl fuel st.list st.normSets [] with
      | .error e => .error e
      | .ok (ns', _) =>
        match rewriteLoop st.list ns' (g.maxId + 1) st.list ⟨g, [], [], []⟩ with
        | .error e => .error e
        | .ok rst =>
          .ok { graph := rst.graph, visited := st.list, preNormSets := st.normSets,
                normSets := ns', replacedArgs := rst.replacedArgs,
                newArgs := rst.newArgs, evalTrace := rst.evalTrace, trace := st.trace }

/-! ## The transactional unfolder -/

/-- The node record of the `RooAddition` pass-through aggregator `_dummy`
wrapped around the caller's top node: derived, not a pdf. -/
def dummyInfo (top : Nat) : NodeInfo :=
  { servers := [top], isPdf := false, isCachedPdf := false,
    selfNormalized := false, isDerived := true, isFundamental := false }

/-- The graph extended with the aggregator node (identity `g.maxId + 1`,
fresh by construction).  Its single server edge to the top node is a value
edge, and it supplies no per-edge override set. -/
def addDummy (g : Graph) (top : Nat) : Graph :=
  { nodes := g.nodes ++ [(g.maxId + 1, dummyInfo top)],
    valueEdge := fun s c => if c = g.maxId + 1 then decide (s = top) else g.valueEdge s c,
    fillNormSetForServer := fun a nsArg s =>
      if a = g.maxId + 1 then none else g.fillNormSetForServer a nsArg s }

/-- The state held by a constructed `NormalizationIntegralUnfolder`. -/
structure NormalizationIntegralUnfolder where
  graph : Graph
  topWrapper : Nat
  normSetWasEmpty : Bool
  visited : List Nat
  preNormSets : List (Nat × List Nat)
  normSets : List (Nat × List Nat)
  replacedArgs : List Nat
  newArgs : List Nat
  evalTrace : List (Nat × List Nat)
  trace : List Nat
  arg : Nat

/-- The `NormalizationIntegralUnfolder` constructor, translated from the
source: wrap the top node in the aggregator, run `unfoldIntegrals`, take
ownership of the created wrappers, and expose the effective root
(`list()[0]` of the aggregator). -/
def NIUconstruct (g : Graph) (top : Nat) (normSet : List Nat) (fuel : Nat) :
    Except Err NormalizationIntegralUnfolder :=
  let d := g.maxId + 1
  let g1 := addDummy g top
  match unfoldIntegrals g1 d normSet fuel with
  | .error e => .error e
  | .ok out =>
    .ok { graph := out.graph, topWrapper := d, normSetWasEmpty := normSet = [],
          visited := out.visited, preNormSets := out.preNormSets,
          normSets := out.normSets, replacedArgs := out.replacedArgs,
          newArgs := out.newArgs, evalTrace := out.evalTrace,
          trace := out.trace, arg := (out.graph.serversOf d).headD 0 }

/-- `foldIntegrals`, translated from the source.  The per-entry `ORIGNAME:`
tagging of the originals with their wrapper's name, followed by
`recursiveRedirectServers(replacedArgs)` from the top node, is modelled from
the spec (that member function is outside the sources): every node reachable
from the top node has each reference to a wrapper (`newArgs[i]`) replaced by
the corresponding original (`replacedArgs[i]`) in one pass. -/
def foldFun (g : Graph) (top fuel : Nat) (pairs : List (Nat × Nat))
    (p : Nat × NodeInfo) : Nat × NodeInfo :=
  if reachN g fuel top p.1 then
    (p.1, { p.2 with servers := p.2.servers.map (fun s => (alookup pairs s).getD s) })
  else p

def foldIntegrals (top : Nat) (replacedArgs newArgs : List Nat) (fuel : Nat)
    (g : Graph) : Graph :=
  { g with nodes := g.nodes.map (foldFun g top fuel (newArgs.zip replacedArgs)) }

/-- The `NormalizationIntegralUnfolder` destructor, translated from the
source: if the normalization set was empty, skip `foldIntegrals`; then the
owned components (the aggregator node and the wrapper nodes) are destroyed,
removing them from the graph. -/
def NIUdestroy (niu : NormalizationIntegralUnfolder) (fuel : Nat) : Graph :=
  let g2 := if niu.normSetWasEmpty then niu.graph
            else foldIntegrals niu.topWrapper niu.replacedArgs niu.newArgs fuel niu.graph
  { g2 with nodes := g2.nodes.filter (fun p => p.1 ≠ niu.topWrapper ∧ p.1 ∉ niu.newArgs) }

/-! ## Derived notions and example graphs -/

/-- Every entry of the memo table is a correct reachability verdict. -/
def MemoGood (g : Graph) (m : Memo) : Prop :=
  ∀ a b v, memoFind m (a, b) = some v → (v = true ↔ ReachAll g a b)

/-- The structural invariant maintained by the propagation traversal: the
visited list has no duplicates, the normalization-set table has one entry per
node, the table's keys are exactly the visited pdf nodes, each pdf node is
descended into at most once, and every descended-into pdf has a table
entry. -/
def PropInv (g : Graph) (st : PropSt) : Prop :=
  st.list.Nodup ∧ (st.normSets.map Prod.fst).Nodup ∧
    (∀ n, n ∈ st.normSets.map Prod.fst ↔ (n ∈ st.list ∧ g.isPdfN n = true)) ∧
    (st.trace.filter (fun n => g.isPdfN n)).Nodup ∧
    (∀ n ∈ st.trace, g.isPdfN n = true → n ∈ st.normSets.map Prod.fst)

/-- All recorded normalization sets are in canonical (sorted) order. -/
def NormSetsSorted (st : PropSt) : Prop :=
  ∀ p ∈ st.normSets, List.Sorted (· ≤ ·) p.2

/-- The entrywise relation between a recorded normalization set and its
narrowed version. -/
def NarrowRel (g : Graph) (visited : List Nat) (n : Nat)
    (s s' : List Nat) : Prop :=
  (s = [] ∧ s' = s) ∨
    (s ≠ [] ∧ (∀ v, v ∈ s' ↔ v ∈ s ∧ ReachAll g n v) ∧ (∀ v ∈ s', v ∈ visited))

/-- The per-client substitution realized by the rewrite loop: a server
occurrence `s` is replaced by its wrapper `base + s` iff `s` was wrapped and
the client lies inside the visited set and is not a cached pdf. -/
def rewSubst (visited wrapped : List Nat) (base c : Nat) (cached : Bool)
    (s : Nat) : Nat :=
  if s ∈ wrapped ∧ c ∈ visited ∧ cached = false then base + s else s

/-- One original node entry after the rewrite. -/
def updNode (visited wrapped : List Nat) (base : Nat) (p : Nat × NodeInfo) :
    Nat × NodeInfo :=
  (p.1, { p.2 with
    servers := p.2.servers.map (rewSubst visited wrapped base p.1 p.2.isCachedPdf) })

/-- The wrapper entries appended by the rewrite, in creation order. -/
def wrapNodes (ns : List (Nat × List Nat)) (base : Nat) (wrapped : List Nat) :
    List (Nat × NodeInfo) :=
  wrapped.map (fun o => (base + o, wrapperInfo o ((alookup ns o).getD [])))

/-- Whether the rewrite loop creates a wrapper for node `n`: a pdf with a
non-empty narrowed normalization set that is not skipped by the
self-normalized (and not cached) rule. -/
def toWrap (g : Graph) (ns : List (Nat × List Nat)) (n : Nat) : Bool :=
  g.isPdfN n && !((alookup ns n).getD []).isEmpty &&
    !(g.selfNormalizedN n && !g.isCachedPdfN n)

/-- Whether the rewrite loop performs the `getVal` cache-materialization side
effect on node `n`: a pdf with a non-empty narrowed normalization set
(regardless of the self-normalized rule). -/
def evalPred (g : Graph) (ns : List (Nat × List Nat)) (n : Nat) : Bool :=
  g.isPdfN n && !((alookup ns n).getD []).isEmpty

/-- A value-contributing traversal edge: `s` is a server of the derived,
non-fundamental node `p` and a value server of it. -/
def EdgeV (g : Graph) (p s : Nat) : Prop :=
  s ∈ g.serversOf p ∧ g.valueEdge s p = true ∧ g.isDerivedN p = true ∧
    g.isFundamentalN p = false

/-- Reachability along value-contributing traversal edges. -/
def ReachV (g : Graph) : Nat → Nat → Prop := Relation.ReflTransGen (EdgeV g)

/-- The nodes wrapped by a successful unfold, in visitation order. -/
def wrappedOf (g1 : Graph) (out : UnfoldOut) : List Nat :=
  out.visited.filter (toWrap g1 out.normSets)

/-- The identity the rewrite gives to the wrapper of node `n` (a fresh
object address in the modelled C++). -/
def niuWid (g : Graph) (top n : Nat) : Nat := (addDummy g top).maxId + 1 + n

/-- The client list of a node: all nodes holding it in their server list. -/
def Graph.clientsOf (g : Graph) (x : Nat) : List Nat :=
  (g.nodes.filter (fun p => x ∈ p.2.servers)).map Prod.fst

/-- Example graph: variable `0` and a pdf `1` depending on it. -/
def exG1 : Graph :=
  { nodes := [(0, ⟨[], false, false, false, false, true⟩),
              (1, ⟨[0], true, false, false, true, false⟩)],
    valueEdge := fun _ _ => true,
    fillNormSetForServer := fun _ _ _ => none }

/-- The diamond graph `0 → {1, 2}`, `1 → 3`, `2 → 3`. -/
def exG5 : Graph :=
  { nodes := [(0, ⟨[1, 2], false, false, false, true, false⟩),
              (1, ⟨[3], false, false, false, true, false⟩),
              (2, ⟨[3], false, false, false, true, false⟩),
              (3, ⟨[], false, false, false, false, true⟩)],
    valueEdge := fun _ _ => true,
    fillNormSetForServer := fun _ _ _ => none }

/-- Example graph: variable `0`, a pdf `1` over it, and a derived non-pdf
client `2` of the pdf. -/
def exG7 : Graph :=
  { nodes := [(0, ⟨[], false, false, false, false, true⟩),
              (1, ⟨[0], true, false, false, true, false⟩),
              (2, ⟨[1], false, false, false, true, false⟩)],
    valueEdge := fun _ _ => true,
    fillNormSetForServer := fun _ _ _ => none }

/-- Example graph: variable `0` and a self-normalized (non-cached) pdf `1`
depending on it. -/
def exG8 : Graph :=
  { nodes := [(0, ⟨[], false, false, false, false, true⟩),
              (1, ⟨[0], true, false, true, true, false⟩)],
    valueEdge := fun _ _ => true,
    fillNormSetForServer := fun _ _ _ => none }

/-- Example graph for C9: a diamond of derived non-pdf nodes
(`4 → {1, 2} → 3 → 0`), so the shared node `3` is reached along two paths. -/
def exG9 : Graph :=
  { nodes := [(0, ⟨[], false, false, false, false, true⟩),
              (3, ⟨[0], false, false, false, true, false⟩),
              (1, ⟨[3], false, false, false, true, false⟩),
              (2, ⟨[3], false, false, false, true, false⟩),
              (4, ⟨[1, 2], false, false, false, true, false⟩)],
    valueEdge := fun _ _ => true,
    fillNormSetForServer := fun _ _ _ => none }

/-- Conflict graph A: top `5` over parents `3` and `4`, pdf `1` over
variable `0`; parent `4` overrides the normalization set of its server `1`
to `[2]`.  Parent `3` is visited first, so it is the first requester. -/
def exG2A : Graph :=
  { nodes := [(0, ⟨[], false, false, false, false, true⟩),
              (1, ⟨[0], true, false, false, true, false⟩),
              (3, ⟨[1], false, false, false, true, false⟩),
              (4, ⟨[1], false, false, false, true, false⟩),
              (5, ⟨[3, 4], false, false, false, true, false⟩)],
    valueEdge := fun _ _ => true,
    fillNormSetForServer := fun a _ s =>
      if a == 4 && s == 1 then some [2] else none }

/-- Conflict graph B: identical to `exG2A` except that the first-requesting
parent has identity `6` instead of `3`. -/
def exG2B : Graph :=
  { nodes := [(0, ⟨[], false, false, false, false, true⟩),
              (1, ⟨[0], true, false, false, true, false⟩),
              (6, ⟨[1], false, false, false, true, false⟩),
              (4, ⟨[1], false, false, false, true, false⟩),
              (5, ⟨[6, 4], false, false, false, true, false⟩)],
    valueEdge := fun _ _ => true,
    fillNormSetForServer := fun a _ s =>
      if a == 4 && s == 1 then some [2] else none }

/-! ## Basic lemmas about lookups and identity bounds -/

theorem alookup_eq_none {β : Type} (l : List (Nat × β)) (a : Nat) :
    alookup l a = none ↔ a ∉ l.map Prod.fst := by
  induction l with
  | nil => simp [alookup]
  | cons p rest ih =>
    by_cases h : p.1 = a
    · simp [alookup, h]
    · simp [alookup, h, ih, Ne.symm h]

theorem alookup_isSome {β : Type} (l : List (Nat × β)) (a : Nat) :
    (alookup l a).isSome ↔ a ∈ l.map Prod.fst := by
  rw [Option.isSome_iff_ne_none, not_iff_comm, ← alookup_eq_none]

theorem alookup_mem {β : Type} {l : List (Nat × β)} {a : Nat} {b : β}
    (h : alookup l a = some b) : (a, b) ∈ l := by
  induction l with
  | nil => simp [alookup] at h
  | cons p rest ih =>
    by_cases hp : p.1 = a
    · simp [alookup, hp] at h
      subst hp; subst h
      exact List.mem_cons_self _ _
    · simp [alookup, hp] at h
      exact List.mem_cons_of_mem _ (ih h)

theorem alookup_append {β : Type} (l1 l2 : List (Nat × β)) (a : Nat) :
    alookup (l1 ++ l2) a =
      match alookup l1 a with
      | some b => some b
      | none => alookup l2 a := by
  induction l1 with
  | nil => simp [alookup]
  | cons p rest ih =>
    by_cases hp : p.1 = a
    · simp [alookup, hp]
    · simp [alookup, hp, ih]

theorem alookup_of_mem_nodup {β : Type} {l : List (Nat × β)} {a : Nat} {b : β}
    (hnd : (l.map Prod.fst).Nodup) (h : (a, b) ∈ l) : alookup l a = some b := by
  induction l with
  | nil => simp at h
  | cons p rest ih =>
    simp only [List.map_cons, List.nodup_cons] at hnd
    rcases List.mem_cons.1 h with h | h
    · subst h; simp [alookup]
    · have hne : p.1 ≠ a := by
        intro he
        exact hnd.1 (he ▸ (List.mem_map.2 ⟨(a, b), h, rfl⟩))
      simp [alookup, hne, ih hnd.2 h]

theorem alookup_map_self {β : Type} (f : Nat → β) (l : List Nat) (a : Nat) :
    alookup (l.map (fun n => (n, f n))) a = if a ∈ l then some (f a) else none := by
  induction l with
  | nil => simp [alookup]
  | cons x rest ih =>
    by_cases hx : x = a
    · subst hx; simp [alookup]
    · simp [alookup, hx, ih, Ne.symm hx]

theorem mem_le_foldr_max {x : Nat} : ∀ {l : List Nat}, x ∈ l → x ≤ l.foldr max 0 := by
  intro l
  induction l with
  | nil => intro h; simp at h
  | cons y rest ih =>
    intro h
    rcases List.mem_cons.1 h with h | h
    · subst h; exact le_max_left _ _
    · exact le_trans (ih h) (le_max_right _ _)

theorem mem_allIds_le_maxId {g : Graph} {x : Nat} (h : x ∈ g.allIds) :
    x ≤ g.maxId := mem_le_foldr_max h

theorem key_mem_allIds {g : Graph} {p : Nat × NodeInfo} (h : p ∈ g.nodes) :
    p.1 ∈ g.allIds := by
  unfold Graph.allIds
  exact List.mem_flatMap.2 ⟨p, h, List.mem_cons_self _ _⟩

theorem server_mem_allIds {g : Graph} {p : Nat × NodeInfo} {s : Nat}
    (h : p ∈ g.nodes) (hs : s ∈ p.2.servers) : s ∈ g.allIds := by
  unfold Graph.allIds
  exact List.mem_flatMap.2 ⟨p, h, List.mem_cons_of_mem _ hs⟩

theorem serversOf_eq_of_lookup {g : Graph} {n : Nat} {info : NodeInfo}
    (h : alookup g.nodes n = some info) : g.serversOf n = info.servers := by
  simp [Graph.serversOf, Graph.infoOf, h]

theorem serversOf_eq_nil_of_none {g : Graph} {n : Nat}
    (h : alookup g.nodes n = none) : g.serversOf n = [] := by
  simp [Graph.serversOf, Graph.infoOf, h]

theorem server_mem_allIds_of_edge {g : Graph} {a s : Nat} (hs : s ∈ g.serversOf a) :
    s ∈ g.allIds := by
  unfold Graph.serversOf Graph.infoOf at hs
  cases h : alookup g.nodes a with
  | none => rw [h] at hs; simp at hs
  | some info =>
    rw [h] at hs; simp at hs
    exact server_mem_allIds (alookup_mem h) hs

theorem rank_lt_of_edge {g : Graph} {rk : Nat → Nat} (hrk : RankedG g rk)
    {a s : Nat} (hs : s ∈ g.serversOf a) : rk s < rk a := by
  unfold Graph.serversOf Graph.infoOf at hs
  cases h : alookup g.nodes a with
  | none => rw [h] at hs; simp at hs
  | some info =>
    rw [h] at hs; simp at hs
    exact hrk (a, info) (alookup_mem h) s hs

/-! ## Bounded reachability -/

theorem reachN_refl (g : Graph) (fuel a : Nat) : reachN g fuel a a = true := by
  cases fuel <;> simp [reachN]

theorem reach_of_reachN {g : Graph} :
    ∀ {fuel a b : Nat}, reachN g fuel a b = true → ReachAll g a b := by
  intro fuel
  induction fuel with
  | zero =>
    intro a b h
    simp [reachN] at h
    exact h ▸ Relation.ReflTransGen.refl
  | succ fuel ih =>
    intro a b h
    simp [reachN] at h
    rcases h with h | ⟨s, hs, h⟩
    · exact h ▸ Relation.ReflTransGen.refl
    · exact Relation.ReflTransGen.head hs (ih h)

theorem reachN_of_reach {g : Graph} {rk : Nat → Nat} (hrk : RankedG g rk)
    {a b : Nat} (h : ReachAll g a b) : ∀ {fuel : Nat}, rk a < fuel →
      reachN g fuel a b = true := by
  induction h using Relation.ReflTransGen.head_induction_on with
  | refl => intro fuel _; exact reachN_refl g fuel b
  | head hab hbc ih =>
    rename_i x y
    intro fuel hfuel
    cases fuel with
    | zero => omega
    | succ fuel =>
      simp [reachN]
      refine Or.inr ⟨y, hab, ih ?_⟩
      have := rank_lt_of_edge hrk hab
      omega

theorem reachN_trans_edge {g : Graph} {fuel a s b : Nat}
    (hs : s ∈ g.serversOf a) (h : reachN g fuel s b = true) :
    reachN g (fuel + 1) a b = true := by
  simp [reachN]
  exact Or.inr ⟨s, hs, h⟩

/-! ## Snapshot lemmas for the GraphChecker server-list map -/

theorem buildSL_keys (g : Graph) (fuel top : Nat) :
    (buildServerLists g fuel top).map Prod.fst =
      ((top :: g.nodes.map Prod.fst).dedup).filter (fun m => reachN g fuel top m) := by
  simp only [buildServerLists, List.map_map]
  exact List.map_id _

theorem buildSL_lookup (g : Graph) (fuel top n : Nat) :
    alookup (buildServerLists g fuel top) n =
      if n ∈ ((top :: g.nodes.map Prod.fst).dedup).filter (fun m => reachN g fuel top m)
      then some (((g.serversOf n).insertionSort (· ≤ ·)).dedup) else none := by
  simp [buildServerLists]
  exact alookup_map_self _ _ n

theorem buildSL_faithful (g : Graph) (fuel top : Nat) {n : Nat} {l : List Nat}
    (h : alookup (buildServerLists g fuel top) n = some l) :
    ∀ s, s ∈ l ↔ s ∈ g.serversOf n := by
  rw [buildSL_lookup] at h
  split at h
  · intro s
    cases h
    rw [List.mem_dedup, (List.perm_insertionSort (· ≤ ·) _).mem_iff]
  · cases h

theorem buildSL_mem_keys (g : Graph) (fuel top n : Nat) :
    n ∈ (buildServerLists g fuel top).map Prod.fst ↔
      (n ∈ top :: g.nodes.map Prod.fst ∧ reachN g fuel top n = true) := by
  rw [buildSL_keys, List.mem_filter, List.mem_dedup]

theorem buildSL_top_mem (g : Graph) (fuel top : Nat) :
    top ∈ (buildServerLists g fuel top).map Prod.fst := by
  rw [buildSL_mem_keys]
  exact ⟨List.mem_cons_self _ _, reachN_refl g fuel top⟩

theorem server_key_of_WF {g : Graph} (hWF : GraphWF g) {n s : Nat}
    (hsrv : s ∈ g.serversOf n) : s ∈ g.nodes.map Prod.fst := by
  unfold Graph.serversOf Graph.infoOf at hsrv
  cases hl : alookup g.nodes n with
  | none => rw [hl] at hsrv; simp at hsrv
  | some info =>
    rw [hl] at hsrv; simp at hsrv
    exact hWF.2 (n, info) (alookup_mem hl) s hsrv

theorem buildSL_closed (g : Graph) (hWF : GraphWF g) {rk : Nat → Nat}
    (hrk : RankedG g rk) {fuel top : Nat} (hfuel : rk top < fuel) :
    ∀ n l, alookup (buildServerLists g fuel top) n = some l →
      ∀ s ∈ l, s ∈ (buildServerLists g fuel top).map Prod.fst := by
  intro n l h s hs
  have hmemk : n ∈ (buildServerLists g fuel top).map Prod.fst := by
    rw [← alookup_isSome, h]; rfl
  have hsrv : s ∈ g.serversOf n := (buildSL_faithful g fuel top h s).1 hs
  have hreachn : ReachAll g top n := by
    have := (buildSL_mem_keys g fuel top n).1 hmemk
    exact reach_of_reachN this.2
  have hreachs : ReachAll g top s :=
    Relation.ReflTransGen.tail hreachn hsrv
  rw [buildSL_mem_keys]
  exact ⟨List.mem_cons_of_mem _ (server_key_of_WF hWF hsrv),
    reachN_of_reach hrk hreachs hfuel⟩

/-! ## Correctness of the memoized dependsOn -/

theorem memoGood_nil (g : Graph) : MemoGood g [] := by
  intro a b v h
  simp [memoFind] at h

theorem memoInsert_good {g : Graph} {m : Memo} {a b : Nat} {v : Bool}
    (hm : MemoGood g m) (hv : v = true ↔ ReachAll g a b) :
    MemoGood g (memoInsert m (a, b) v) := by
  unfold memoInsert
  split
  · exact hm
  · intro a' b' v' h
    unfold memoFind at h
    split at h
    · rename_i heq
      have h1 : a = a' ∧ b = b' := by
        have := Prod.mk.injEq a b a' b' ▸ heq
        exact Prod.mk.inj heq
      obtain ⟨rfl, rfl⟩ := h1
      cases h
      exact hv
    · exact hm a' b' v' h

theorem depLoop_spec (g : Graph) (step : Nat → Memo → Except Err (Bool × Memo))
    (arg testArg : Nat) :
    ∀ l memo r m',
      (∀ s ∈ l, ∀ m r' m'', MemoGood g m → step s m = .ok (r', m'') →
        MemoGood g m'' ∧ (r' = true ↔ ReachAll g s testArg)) →
      (∀ s ∈ l, s ∈ g.serversOf arg) →
      ((∀ s ∈ l, ¬ ReachAll g s testArg) → ¬ ReachAll g arg testArg) →
      MemoGood g memo →
      depLoop step arg testArg l memo = .ok (r, m') →
      MemoGood g m' ∧ (r = true → ReachAll g arg testArg) ∧
        (r = false → ¬ ReachAll g arg testArg) := by
  intro l
  induction l with
  | nil =>
    intro memo r m' _ _ hdone hm h
    simp only [depLoop, Except.ok.injEq, Prod.mk.injEq] at h
    obtain ⟨hr, hm'⟩ := h
    have hnr : ¬ ReachAll g arg testArg := hdone (by intro s hs; simp at hs)
    subst hm'
    refine ⟨memoInsert_good hm (by simp [hnr]), ?_, fun _ => hnr⟩
    intro habs; rw [habs] at hr; cases hr
  | cons s rest ih =>
    intro memo r m' hstep hedge hdone hm h
    rw [depLoop] at h
    cases hs : step s memo with
    | error e => rw [hs] at h; cases h
    | ok tm =>
      obtain ⟨t, m1⟩ := tm
      rw [hs] at h
      obtain ⟨hm1, hiff⟩ :=
        hstep s (List.mem_cons_self _ _) memo t m1 hm hs
      have hm2 : MemoGood g (memoInsert m1 (s, testArg) t) :=
        memoInsert_good hm1 hiff
      by_cases ht : t = true
      · subst ht
        simp only [if_true] at h
        simp only [Except.ok.injEq, Prod.mk.injEq] at h
        obtain ⟨hr, hm'⟩ := h
        subst hm'
        refine ⟨hm2, ?_, ?_⟩
        · intro _
          exact Relation.ReflTransGen.head
            (hedge s (List.mem_cons_self _ _)) (hiff.1 rfl)
        · intro habs; rw [habs] at hr; cases hr
      · have ht' : t = false := by
          cases t
          · rfl
          · exact absurd rfl ht
        subst ht'
        simp only [if_false, Bool.false_eq_true] at h
        have hnrs : ¬ ReachAll g s testArg := by
          intro habs
          exact ht (hiff.2 habs)
        exact ih (memoInsert m1 (s, testArg) false) r m'
          (fun s' hs' => hstep s' (List.mem_cons_of_mem _ hs'))
          (fun s' hs' => hedge s' (List.mem_cons_of_mem _ hs'))
          (fun hall => hdone (by
            intro s' hs'
            rcases List.mem_cons.1 hs' with h' | h'
            · exact h' ▸ hnrs
            · exact hall s' h'))
          hm2 h

theorem dependsOn_spec (g : Graph) (sl : List (Nat × List Nat))
    (hfaith : ∀ a l, alookup sl a = some l → ∀ s, s ∈ l ↔ s ∈ g.serversOf a)
    (hclosed : ∀ a l, alookup sl a = some l → ∀ s ∈ l, s ∈ sl.map Prod.fst) :
    ∀ fuel a b memo r m', a ∈ sl.map Prod.fst → MemoGood g memo →
      dependsOnAux sl fuel a b memo = .ok (r, m') →
      MemoGood g m' ∧ (r = true ↔ ReachAll g a b) := by
  intro fuel
  induction fuel with
  | zero =>
    intro a b memo r m' _ _ h
    cases h
  | succ fuel ih =>
    intro a b memo r m' ha hm h
    rw [dependsOnAux] at h
    cases hfind : memoFind memo (a, b) with
    | some v =>
      simp only [hfind, Except.ok.injEq, Prod.mk.injEq] at h
      obtain ⟨rfl, rfl⟩ := h
      exact ⟨hm, hm a b _ hfind⟩
    | none =>
      simp only [hfind] at h
      by_cases hab : a = b
      · subst hab
        simp only [if_pos rfl, Except.ok.injEq, Prod.mk.injEq] at h
        obtain ⟨rfl, rfl⟩ := h
        exact ⟨hm, iff_of_true rfl Relation.ReflTransGen.refl⟩
      · rw [if_neg hab] at h
        cases hsl : alookup sl a with
        | none =>
          exact absurd ((alookup_isSome sl a).2 ha) (by rw [hsl]; simp)
        | some serverList =>
          simp only [hsl] at h
          by_cases hb : b ∈ serverList
          · simp only [if_pos hb, Except.ok.injEq, Prod.mk.injEq] at h
            obtain ⟨rfl, rfl⟩ := h
            have hreach : ReachAll g a b :=
              Relation.ReflTransGen.single ((hfaith a serverList hsl b).1 hb)
            exact ⟨memoInsert_good hm (by simp [hreach]), by simp [hreach]⟩
          · rw [if_neg hb] at h
            have hloop := depLoop_spec g
              (fun s m => dependsOnAux sl fuel s b m) a b serverList memo r m'
              (fun s hs m r' m'' hmm hrun =>
                ih s b m r' m'' (hclosed a serverList hsl s hs) hmm hrun)
              (fun s hs => (hfaith a serverList hsl s).1 hs)
              (fun hall habs => by
                rcases (Relation.ReflTransGen.cases_head habs) with h' | ⟨c, hc, hcb⟩
                · exact hab h'
                · exact hall c ((hfaith a serverList hsl c).2 hc) hcb)
              hm h
            obtain ⟨hm', h1, h2⟩ := hloop
            refine ⟨hm', ⟨h1, ?_⟩⟩
            intro hreach
            cases hr : r
            · exact absurd hreach (h2 hr)
            · rfl

/-! ## dependsOn never takes the missing-key branch on a closed map -/

theorem depLoop_no_missingKey (step : Nat → Memo → Except Err (Bool × Memo))
    (arg testArg : Nat) :
    ∀ l memo, (∀ s ∈ l, ∀ m, step s m ≠ .error .missingKey) →
      depLoop step arg testArg l memo ≠ .error .missingKey := by
  intro l
  induction l with
  | nil => intro memo _ h; simp [depLoop] at h
  | cons s rest ih =>
    intro memo hstep h
    rw [depLoop] at h
    cases hs : step s memo with
    | error e =>
      simp only [hs] at h
      exact hstep s (List.mem_cons_self _ _) memo (by rw [hs, h])
    | ok tm =>
      obtain ⟨t, m1⟩ := tm
      simp only [hs] at h
      cases t with
      | true => simp at h
      | false =>
        simp only [if_false, Bool.false_eq_true] at h
        exact ih _ (fun s' hs' => hstep s' (List.mem_cons_of_mem _ hs')) h

theorem dependsOn_no_missingKey (sl : List (Nat × List Nat))
    (hclosed : ∀ a l, alookup sl a = some l → ∀ s ∈ l, s ∈ sl.map Prod.fst) :
    ∀ fuel a b memo, a ∈ sl.map Prod.fst →
      dependsOnAux sl fuel a b memo ≠ .error .missingKey := by
  intro fuel
  induction fuel with
  | zero => intro a b memo _ h; cases h
  | succ fuel ih =>
    intro a b memo ha h
    rw [dependsOnAux] at h
    cases hfind : memoFind memo (a, b) with
    | some v => simp only [hfind] at h; simp at h
    | none =>
      simp only [hfind] at h
      by_cases hab : a = b
      · rw [if_pos hab] at h; cases h
      · rw [if_neg hab] at h
        cases hsl : alookup sl a with
        | none => exact absurd ((alookup_isSome sl a).2 ha) (by rw [hsl]; simp)
        | some serverList =>
          simp only [hsl] at h
          by_cases hb : b ∈ serverList
          · rw [if_pos hb] at h; cases h
          · rw [if_neg hb] at h
            exact depLoop_no_missingKey _ a b serverList memo
              (fun s hs m => ih s b m (hclosed a serverList hsl s hs)) h

/-! ## Generic preservation lemmas for the propagation traversal -/

theorem propLoop_rel (R : PropSt → PropSt → Prop)
    (hrefl : ∀ st, R st st)
    (htrans : ∀ a b c, R a b → R b c → R a c)
    {step : Nat → List Nat → PropSt → Except Err PropSt}
    {g : Graph} {arg : Nat} {normSet : List Nat} :
    ∀ l st st',
      (∀ s ∈ l, g.valueEdge s arg = true →
        ∀ sns t t', step s sns t = .ok t' → R t t') →
      propLoop step g arg normSet l st = .ok st' → R st st' := by
  intro l
  induction l with
  | nil =>
    intro st st' _ h
    simp only [propLoop, Except.ok.injEq] at h
    exact h ▸ hrefl st
  | cons s rest ih =>
    intro st st' hstep h
    rw [propLoop] at h
    by_cases hv : g.valueEdge s arg = false
    · rw [if_pos hv] at h
      exact ih st st' (fun s' hs' => hstep s' (List.mem_cons_of_mem _ hs')) h
    · rw [if_neg hv] at h
      have hv' : g.valueEdge s arg = true := by
        cases hx : g.valueEdge s arg
        · exact absurd hx hv
        · rfl
      cases hfound : alookup st.normSets s with
      | some found =>
        simp only [hfound] at h
        split at h
        · cases h
        · exact ih st st' (fun s' hs' => hstep s' (List.mem_cons_of_mem _ hs')) h
      | none =>
        simp only [hfound] at h
        cases hstepr : step s (match g.fillNormSetForServer arg normSet s with
            | some l => l.insertionSort (· ≤ ·)
            | none => normSet) st with
        | error e => rw [hstepr] at h; cases h
        | ok st1 =>
          rw [hstepr] at h
          have h1 : R st st1 :=
            hstep s (List.mem_cons_self _ _) hv' _ st st1 hstepr
          exact htrans _ _ _ h1
            (ih st1 st' (fun s' hs' => hstep s' (List.mem_cons_of_mem _ hs')) h)

theorem treeNode_rel (R : PropSt → PropSt → Prop) {g : Graph}
    (hrefl : ∀ st, R st st)
    (htrans : ∀ a b c, R a b → R b c → R a c)
    (hloc : ∀ st arg normSet, alookup st.normSets arg = none →
      R st (entrySt g arg normSet st)) :
    ∀ fuel arg normSet st st',
      treeNodeServerListAndNormSets g fuel arg normSet st = .ok st' → R st st' := by
  intro fuel
  induction fuel with
  | zero => intro arg normSet st st' h; cases h
  | succ fuel ih =>
    intro arg normSet st st' h
    rw [treeNodeServerListAndNormSets] at h
    by_cases hg : (alookup st.normSets arg).isSome
    · rw [if_pos hg] at h
      cases h
      exact hrefl st
    · rw [if_neg hg] at h
      have hnone : alookup st.normSets arg = none := by
        cases hx : alookup st.normSets arg
        · rfl
        · rw [hx] at hg; simp at hg
      by_cases hd : g.isDerivedN arg = true ∧ g.isFundamentalN arg = false
      · rw [if_pos hd] at h
        exact htrans _ _ _ (hloc st arg normSet hnone)
          (propLoop_rel R hrefl htrans _ _ _
            (fun s _ _ sns t t' hr => ih s sns t t' hr) h)
      · rw [if_neg hd] at h
        cases h
        exact hloc st arg normSet hnone

/-- The traversal only extends the visited list, the normalization-set table
and the trace (all by appending). -/
theorem treeNode_ext {g : Graph} {fuel arg : Nat} {normSet : List Nat}
    {st st' : PropSt}
    (h : treeNodeServerListAndNormSets g fuel arg normSet st = .ok st') :
    (∃ e, st'.list = st.list ++ e) ∧ (∃ e, st'.normSets = st.normSets ++ e) ∧
      (∃ e, st'.trace = st.trace ++ e) := by
  refine treeNode_rel
    (fun a b => (∃ e, b.list = a.list ++ e) ∧ (∃ e, b.normSets = a.normSets ++ e) ∧
      (∃ e, b.trace = a.trace ++ e)) ?_ ?_ ?_ fuel arg normSet st st' h
  · intro st
    exact ⟨⟨[], by simp⟩, ⟨[], by simp⟩, ⟨[], by simp⟩⟩
  · rintro a b c ⟨⟨e1, h1⟩, ⟨e2, h2⟩, ⟨e3, h3⟩⟩ ⟨⟨f1, k1⟩, ⟨f2, k2⟩, ⟨f3, k3⟩⟩
    exact ⟨⟨e1 ++ f1, by rw [k1, h1, List.append_assoc]⟩,
      ⟨e2 ++ f2, by rw [k2, h2, List.append_assoc]⟩,
      ⟨e3 ++ f3, by rw [k3, h3, List.append_assoc]⟩⟩
  · intro st arg normSet _
    unfold entrySt addOnce
    by_cases hp : g.isPdfN arg = true
    · simp only [hp, if_true]
      refine ⟨?_, ⟨[(arg, normSet)], rfl⟩, ⟨[arg], rfl⟩⟩
      by_cases hm : arg ∈ st.list
      · exact ⟨[], by simp [hm]⟩
      · exact ⟨[arg], by simp [hm]⟩
    · simp only [hp]
      simp only [Bool.not_eq_true] at hp
      simp only [hp, if_false, Bool.false_eq_true]
      refine ⟨?_, ⟨[], by simp⟩, ⟨[arg], rfl⟩⟩
      by_cases hm : arg ∈ st.list
      · exact ⟨[], by simp [hm]⟩
      · exact ⟨[arg], by simp [hm]⟩

theorem mem_addOnce {l : List Nat} {a b : Nat} :
    b ∈ addOnce l a ↔ b ∈ l ∨ b = a := by
  unfold addOnce
  by_cases hm : a ∈ l
  · simp only [if_pos hm]
    constructor
    · exact Or.inl
    · rintro (h | rfl)
      · exact h
      · exact hm
  · simp [if_neg hm]

theorem addOnce_nodup {l : List Nat} {a : Nat} (h : l.Nodup) :
    (addOnce l a).Nodup := by
  unfold addOnce
  by_cases hm : a ∈ l
  · simpa [if_pos hm]
  · simp only [if_neg hm]
    simp [List.nodup_append, h, hm]

theorem entrySt_inv {g : Graph} {st : PropSt} {arg : Nat} {normSet : List Nat}
    (hnone : alookup st.normSets arg = none) (hinv : PropInv g st) :
    PropInv g (entrySt g arg normSet st) := by
  obtain ⟨h1, h2, h3, h4, h5⟩ := hinv
  have hkarg : arg ∉ st.normSets.map Prod.fst := (alookup_eq_none _ _).1 hnone
  unfold entrySt
  by_cases hp : g.isPdfN arg = true
  · simp only [hp, if_true]
    refine ⟨addOnce_nodup h1, ?_, ?_, ?_, ?_⟩
    · simp [List.nodup_append, h2, hkarg]
    · intro n
      simp only [List.map_append, List.mem_append, List.map_cons, List.map_nil,
        List.mem_singleton, mem_addOnce]
      by_cases hn : n = arg
      · subst hn
        simp [hp]
      · rw [h3 n]
        tauto
    · rw [List.filter_append]
      simp only [List.filter_cons, hp, if_true]
      have harg : arg ∉ st.trace.filter (fun n => g.isPdfN n) := by
        intro hmem
        rw [List.mem_filter] at hmem
        exact hkarg (h5 arg hmem.1 hmem.2)
      simp [List.nodup_append, h4, harg]
    · intro n hn hpn
      simp only [List.map_append, List.mem_append]
      rcases List.mem_append.1 hn with hn | hn
      · exact Or.inl (h5 n hn hpn)
      · simp at hn
        subst hn
        exact Or.inr (by simp)
  · have hp' : g.isPdfN arg = false := by
      cases hx : g.isPdfN arg
      · rfl
      · exact absurd hx hp
    simp only [hp', if_false, Bool.false_eq_true]
    refine ⟨addOnce_nodup h1, h2, ?_, ?_, ?_⟩
    · intro n
      rw [h3 n, mem_addOnce]
      constructor
      · rintro ⟨hl, hpn⟩
        exact ⟨Or.inl hl, hpn⟩
      · rintro ⟨hl | he, hpn⟩
        · exact ⟨hl, hpn⟩
        · subst he
          rw [hpn] at hp'
          cases hp'
    · rw [List.filter_append]
      simp only [List.filter_cons, hp', List.filter_nil]
      simpa using h4
    · intro n hn hpn
      rcases List.mem_append.1 hn with hn | hn
      · exact h5 n hn hpn
      · simp at hn
        subst hn
        rw [hpn] at hp'
        cases hp'

theorem treeNode_inv {g : Graph} {fuel arg : Nat} {normSet : List Nat}
    {st st' : PropSt}
    (h : treeNodeServerListAndNormSets g fuel arg normSet st = .ok st')
    (hinv : PropInv g st) : PropInv g st' := by
  refine treeNode_rel (fun a b => PropInv g a → PropInv g b) ?_ ?_ ?_
    fuel arg normSet st st' h hinv
  · exact fun _ hi => hi
  · exact fun _ _ _ hab hbc hi => hbc (hab hi)
  · exact fun st arg normSet hnone hi => entrySt_inv hnone hi

/-- Everything the traversal adds to the visited list satisfies any property
`P` that holds at the entry node and is preserved along the value-server
edges the traversal follows. -/
theorem treeNode_P {g : Graph} (P : Nat → Prop)
    (hcl : ∀ p s, P p → g.isDerivedN p = true → g.isFundamentalN p = false →
      s ∈ g.serversOf p → g.valueEdge s p = true → P s) :
    ∀ fuel arg normSet st st', P arg → (∀ x ∈ st.list, P x) →
      treeNodeServerListAndNormSets g fuel arg normSet st = .ok st' →
      ∀ x ∈ st'.list, P x := by
  intro fuel
  induction fuel with
  | zero => intro arg normSet st st' _ _ h; cases h
  | succ fuel ih =>
    intro arg normSet st st' harg hst h
    rw [treeNodeServerListAndNormSets] at h
    by_cases hg : (alookup st.normSets arg).isSome
    · rw [if_pos hg] at h
      cases h
      exact hst
    · rw [if_neg hg] at h
      have hent : ∀ x ∈ (entrySt g arg normSet st).list, P x := by
        intro x hx
        have : x ∈ addOnce st.list arg := by
          unfold entrySt at hx
          by_cases hp : g.isPdfN arg <;> simp [hp] at hx <;> exact hx
        rcases mem_addOnce.1 this with hx' | rfl
        · exact hst x hx'
        · exact harg
      by_cases hd : g.isDerivedN arg = true ∧ g.isFundamentalN arg = false
      · rw [if_pos hd] at h
        refine propLoop_rel
          (fun a b => (∀ x ∈ a.list, P x) → (∀ x ∈ b.list, P x)) ?_ ?_ _ _ _
          ?_ h hent
        · exact fun _ hi => hi
        · exact fun _ _ _ hab hbc hi => hbc (hab hi)
        · intro s hs hv sns t t' hrun hall
          exact ih s sns t t' (hcl arg s harg hd.1 hd.2 hs hv) hall hrun
      · rw [if_neg hd] at h
        cases h
        exact hent

/-! ## Sortedness of the propagated normalization sets -/

theorem entrySt_sorted {g : Graph} {st : PropSt} {arg : Nat} {normSet : List Nat}
    (hns : List.Sorted (· ≤ ·) normSet) (hst : NormSetsSorted st) :
    NormSetsSorted (entrySt g arg normSet st) := by
  unfold entrySt
  by_cases hp : g.isPdfN arg = true
  · simp only [hp, if_true]
    intro p hp'
    rcases List.mem_append.1 hp' with h | h
    · exact hst p h
    · simp at h
      rw [h]
      exact hns
  · have hp' : g.isPdfN arg = false := by
      cases hx : g.isPdfN arg
      · rfl
      · exact absurd hx hp
    simp only [hp', if_false, Bool.false_eq_true]
    exact hst

theorem propLoop_sorted {g : Graph} {arg : Nat} {normSet : List Nat}
    {step : Nat → List Nat → PropSt → Except Err PropSt}
    (hns : List.Sorted (· ≤ ·) normSet)
    (hstep : ∀ s sns t t', List.Sorted (· ≤ ·) sns → NormSetsSorted t →
      step s sns t = .ok t' → NormSetsSorted t') :
    ∀ l st st', NormSetsSorted st →
      propLoop step g arg normSet l st = .ok st' → NormSetsSorted st' := by
  intro l
  induction l with
  | nil =>
    intro st st' hst h
    simp only [propLoop, Except.ok.injEq] at h
    exact h ▸ hst
  | cons s rest ih =>
    intro st st' hst h
    rw [propLoop] at h
    by_cases hv : g.valueEdge s arg = false
    · rw [if_pos hv] at h
      exact ih st st' hst h
    · rw [if_neg hv] at h
      have hsns : List.Sorted (· ≤ ·)
          (match g.fillNormSetForServer arg normSet s with
           | some l => l.insertionSort (· ≤ ·)
           | none => normSet) := by
        cases hfill : g.fillNormSetForServer arg normSet s
        · simpa [hfill] using hns
        · simp only [hfill]
          exact List.sorted_insertionSort (· ≤ ·) _
      cases hfound : alookup st.normSets s with
      | some found =>
        simp only [hfound] at h
        split at h
        · cases h
        · exact ih st st' hst h
      | none =>
        simp only [hfound] at h
        cases hstepr : step s (match g.fillNormSetForServer arg normSet s with
            | some l => l.insertionSort (· ≤ ·)
            | none => normSet) st with
        | error e => rw [hstepr] at h; cases h
        | ok st1 =>
          rw [hstepr] at h
          exact ih st1 st' (hstep s _ st st1 hsns hst hstepr) h

theorem treeNode_sorted {g : Graph} :
    ∀ fuel arg normSet st st', List.Sorted (· ≤ ·) normSet → NormSetsSorted st →
      treeNodeServerListAndNormSets g fuel arg normSet st = .ok st' →
      NormSetsSorted st' := by
  intro fuel
  induction fuel with
  | zero => intro arg normSet st st' _ _ h; cases h
  | succ fuel ih =>
    intro arg normSet st st' hns hst h
    rw [treeNodeServerListAndNormSets] at h
    by_cases hg : (alookup st.normSets arg).isSome
    · rw [if_pos hg] at h
      cases h
      exact hst
    · rw [if_neg hg] at h
      have hent : NormSetsSorted (entrySt g arg normSet st) :=
        entrySt_sorted hns hst
      by_cases hd : g.isDerivedN arg = true ∧ g.isFundamentalN arg = false
      · rw [if_pos hd] at h
        exact propLoop_sorted hns
          (fun s sns t t' hs ht hr => ih s sns t t' hs ht hr) _ _ _ hent h
      · rw [if_neg hd] at h
        cases h
        exact hent

theorem propLoop_conflict {g : Graph} {arg : Nat} {normSet : List Nat}
    {step : Nat → List Nat → PropSt → Except Err PropSt} {e : ConflictError}
    (hns : List.Sorted (· ≤ ·) normSet)
    (hstepOk : ∀ s sns t t', List.Sorted (· ≤ ·) sns → NormSetsSorted t →
      step s sns t = .ok t' → NormSetsSorted t')
    (hstepErr : ∀ s sns t, List.Sorted (· ≤ ·) sns → NormSetsSorted t →
      step s sns t = .error (.conflict e) →
      List.Sorted (· ≤ ·) e.requestedSet ∧ List.Sorted (· ≤ ·) e.firstSet ∧
        e.requestedSet ≠ e.firstSet) :
    ∀ l st, NormSetsSorted st →
      propLoop step g arg normSet l st = .error (.conflict e) →
      List.Sorted (· ≤ ·) e.requestedSet ∧ List.Sorted (· ≤ ·) e.firstSet ∧
        e.requestedSet ≠ e.firstSet := by
  intro l
  induction l with
  | nil => intro st _ h; cases h
  | cons s rest ih =>
    intro st hst h
    rw [propLoop] at h
    by_cases hv : g.valueEdge s arg = false
    · rw [if_pos hv] at h
      exact ih st hst h
    · rw [if_neg hv] at h
      have hsns : List.Sorted (· ≤ ·)
          (match g.fillNormSetForServer arg normSet s with
           | some l => l.insertionSort (· ≤ ·)
           | none => normSet) := by
        cases hfill : g.fillNormSetForServer arg normSet s
        · simpa [hfill] using hns
        · simp only [hfill]
          exact List.sorted_insertionSort (· ≤ ·) _
      cases hfound : alookup st.normSets s with
      | some found =>
        simp only [hfound] at h
        split at h
        · rename_i hcond
          simp only [Except.error.injEq, Err.conflict.injEq] at h
          subst h
          have hfc : List.Sorted (· ≤ ·) found := hst (s, found) (alookup_mem hfound)
          refine ⟨hsns, hfc, ?_⟩
          rcases hcond with hlen | hne
          · intro habs
            exact hlen (congrArg List.length habs.symm)
          · exact fun habs => hne habs.symm
        · exact ih st hst h
      | none =>
        simp only [hfound] at h
        cases hstepr : step s (match g.fillNormSetForServer arg normSet s with
            | some l => l.insertionSort (· ≤ ·)
            | none => normSet) st with
        | error er =>
          rw [hstepr] at h
          cases h
          exact hstepErr s _ st hsns hst hstepr
        | ok st1 =>
          rw [hstepr] at h
          exact ih st1 (hstepOk s _ st st1 hsns hst hstepr) h

theorem treeNode_conflict {g : Graph} :
    ∀ fuel arg normSet st e, List.Sorted (· ≤ ·) normSet → NormSetsSorted st →
      treeNodeServerListAndNormSets g fuel arg normSet st = .error (.conflict e) →
      List.Sorted (· ≤ ·) e.requestedSet ∧ List.Sorted (· ≤ ·) e.firstSet ∧
        e.requestedSet ≠ e.firstSet := by
  intro fuel
  induction fuel with
  | zero =>
    intro arg normSet st e _ _ h
    simp [treeNodeServerListAndNormSets] at h
  | succ fuel ih =>
    intro arg normSet st e hns hst h
    rw [treeNodeServerListAndNormSets] at h
    by_cases hg : (alookup st.normSets arg).isSome
    · rw [if_pos hg] at h
      cases h
    · rw [if_neg hg] at h
      by_cases hd : g.isDerivedN arg = true ∧ g.isFundamentalN arg = false
      · rw [if_pos hd] at h
        exact propLoop_conflict hns
          (fun s sns t t' hs ht hr => treeNode_sorted fuel s sns t t' hs ht hr)
          (fun s sns t hs ht hr => ih s sns t e hs ht hr)
          _ _ (entrySt_sorted hns hst) h
      · rw [if_neg hd] at h
        cases h

/-! ## Characterization of the narrowing pass -/

theorem findIn_some {visited : List Nat} {v v' : Nat}
    (h : findIn visited v = some v') : v' = v ∧ v ∈ visited := by
  unfold findIn at h
  split at h
  · cases h
    exact ⟨rfl, by assumption⟩
  · cases h

theorem filterNorm_spec {g : Graph} {sl : List (Nat × List Nat)}
    (hfaith : ∀ a l, alookup sl a = some l → ∀ s, s ∈ l ↔ s ∈ g.serversOf a)
    (hclosed : ∀ a l, alookup sl a = some l → ∀ s ∈ l, s ∈ sl.map Prod.fst)
    {fuel : Nat} {visited : List Nat} {n : Nat} (hn : n ∈ sl.map Prod.fst) :
    ∀ vlist memo vs' memo2, MemoGood g memo →
      filterNorm sl fuel visited n vlist memo = .ok (vs', memo2) →
      MemoGood g memo2 ∧ (∀ v, v ∈ vs' ↔ v ∈ vlist ∧ ReachAll g n v) ∧
        (∀ v ∈ vs', v ∈ visited) := by
  intro vlist
  induction vlist with
  | nil =>
    intro memo vs' memo2 hm h
    simp only [filterNorm, Except.ok.injEq, Prod.mk.injEq] at h
    obtain ⟨rfl, rfl⟩ := h
    exact ⟨hm, by simp, by simp⟩
  | cons v vs ih =>
    intro memo vs' memo2 hm h
    rw [filterNorm] at h
    cases hdep : dependsOnAux sl fuel n v memo with
    | error e => rw [hdep] at h; cases h
    | ok tm =>
      obtain ⟨t, memo1⟩ := tm
      simp only [hdep] at h
      obtain ⟨hm1, hiff⟩ := dependsOn_spec g sl hfaith hclosed fuel n v memo t memo1 hn hm hdep
      cases hrec : filterNorm sl fuel visited n vs memo1 with
      | error e => simp only [hrec] at h; cases h
      | ok vm =>
        obtain ⟨vs0, m2⟩ := vm
        simp only [hrec] at h
        obtain ⟨hm2, hiff0, hsub0⟩ := ih memo1 vs0 m2 hm1 hrec
        cases t with
        | true =>
          simp only [if_pos rfl] at h
          cases hfi : findIn visited v with
          | none => rw [hfi] at h; cases h
          | some v' =>
            rw [hfi] at h
            simp only [Except.ok.injEq, Prod.mk.injEq] at h
            obtain ⟨rfl, rfl⟩ := h
            obtain ⟨rfl, hvis⟩ := findIn_some hfi
            refine ⟨hm2, ?_, ?_⟩
            · intro x
              simp only [List.mem_cons]
              constructor
              · rintro (rfl | hx)
                · exact ⟨Or.inl rfl, hiff.1 rfl⟩
                · obtain ⟨hxv, hr⟩ := (hiff0 x).1 hx
                  exact ⟨Or.inr hxv, hr⟩
              · rintro ⟨rfl | hxv, hr⟩
                · exact Or.inl rfl
                · exact Or.inr ((hiff0 x).2 ⟨hxv, hr⟩)
            · intro x hx
              rcases List.mem_cons.1 hx with rfl | hx
              · exact hvis
              · exact hsub0 x hx
        | false =>
          simp only [Bool.false_eq_true, if_false] at h
          simp only [Except.ok.injEq, Prod.mk.injEq] at h
          obtain ⟨rfl, rfl⟩ := h
          refine ⟨hm2, ?_, hsub0⟩
          intro x
          rw [hiff0 x]
          constructor
          · rintro ⟨hxv, hr⟩
            exact ⟨List.mem_cons_of_mem _ hxv, hr⟩
          · rintro ⟨hxm, hr⟩
            rcases List.mem_cons.1 hxm with rfl | hxv
            · exact absurd (hiff.2 hr) (by simp)
            · exact ⟨hxv, hr⟩

theorem narrowLoop_spec {g : Graph} {sl : List (Nat × List Nat)}
    (hfaith : ∀ a l, alookup sl a = some l → ∀ s, s ∈ l ↔ s ∈ g.serversOf a)
    (hclosed : ∀ a l, alookup sl a = some l → ∀ s ∈ l, s ∈ sl.map Prod.fst)
    {fuel : Nat} {visited : List Nat} :
    ∀ ns memo ns' memo', MemoGood g memo →
      (∀ p ∈ ns, p.1 ∈ sl.map Prod.fst) →
      narrowLoop sl fuel visited ns memo = .ok (ns', memo') →
      ∀ n s, alookup ns n = some s →
        ∃ s', alookup ns' n = some s' ∧ NarrowRel g visited n s s' := by
  intro ns
  induction ns with
  | nil =>
    intro memo ns' memo' _ _ h n s hs
    cases hs
  | cons p rest ih =>
    obtain ⟨k, s0⟩ := p
    intro memo ns' memo' hm hkeys h n s hs
    rw [narrowLoop] at h
    by_cases hz : s0 = []
    · rw [if_pos hz] at h
      cases hrec : narrowLoop sl fuel visited rest memo with
      | error e => rw [hrec] at h; cases h
      | ok rm =>
        obtain ⟨rest', memo1⟩ := rm
        rw [hrec] at h
        simp only [Except.ok.injEq, Prod.mk.injEq] at h
        obtain ⟨rfl, rfl⟩ := h
        by_cases hk : k = n
        · subst hk
          simp only [alookup, if_pos rfl] at hs ⊢
          have hse : s0 = s := Option.some_inj.1 hs
          subst hse
          exact ⟨s0, rfl, Or.inl ⟨hz, rfl⟩⟩
        · simp only [alookup, if_neg hk] at hs ⊢
          exact ih memo rest' memo1 hm
            (fun q hq => hkeys q (List.mem_cons_of_mem _ hq)) hrec n s hs
    · rw [if_neg hz] at h
      cases hfn : filterNorm sl fuel visited k s0 memo with
      | error e => rw [hfn] at h; cases h
      | ok sm =>
        obtain ⟨s1, memo1⟩ := sm
        simp only [hfn] at h
        obtain ⟨hm1, hiff, hsub⟩ := filterNorm_spec hfaith hclosed
          (hkeys (k, s0) (List.mem_cons_self _ _)) s0 memo s1 memo1 hm hfn
        cases hrec : narrowLoop sl fuel visited rest memo1 with
        | error e => simp only [hrec] at h; cases h
        | ok rm =>
          obtain ⟨rest', memo2⟩ := rm
          simp only [hrec] at h
          simp only [Except.ok.injEq, Prod.mk.injEq] at h
          obtain ⟨rfl, rfl⟩ := h
          by_cases hk : k = n
          · subst hk
            simp only [alookup, if_pos rfl] at hs ⊢
            have hse : s0 = s := Option.some_inj.1 hs
            subst hse
            exact ⟨s1, rfl, Or.inr ⟨hz, hiff, hsub⟩⟩
          · simp only [alookup, if_neg hk] at hs ⊢
            exact ih memo1 rest' memo2 hm1
              (fun q hq => hkeys q (List.mem_cons_of_mem _ hq)) hrec n s hs

/-! ## The shape of the rewritten graph -/

theorem alookup_map_pair {β γ : Type} (F : Nat → β → γ) :
    ∀ (l : List (Nat × β)) (a : Nat),
      alookup (l.map (fun p => (p.1, F p.1 p.2))) a = (alookup l a).map (F a) := by
  intro l
  induction l with
  | nil => intro a; simp [alookup]
  | cons p rest ih =>
    intro a
    by_cases hp : p.1 = a
    · subst hp; simp [alookup]
    · simp [alookup, hp, ih]

theorem updNode_nil (visited : List Nat) (base : Nat) (p : Nat × NodeInfo) :
    updNode visited [] base p = p := by
  unfold updNode rewSubst
  have : ∀ s : Nat, (if s ∈ ([] : List Nat) ∧ p.1 ∈ visited ∧ p.2.isCachedPdf = false
      then base + s else s) = s := by
    intro s
    simp
  rw [List.map_congr_left (fun s _ => this s), List.map_id']

theorem updNode_key (visited wrapped : List Nat) (base : Nat)
    (p : Nat × NodeInfo) : (updNode visited wrapped base p).1 = p.1 := rfl

/-- Lookup in the rewritten original part. -/
theorem alookup_updNodes (g1 : Graph) (visited wrapped : List Nat) (base a : Nat) :
    alookup (g1.nodes.map (updNode visited wrapped base)) a =
      (alookup g1.nodes a).map
        (fun info => { info with
          servers := info.servers.map (rewSubst visited wrapped base a info.isCachedPdf) }) :=
  alookup_map_pair
    (fun n info => { info with
      servers := info.servers.map (rewSubst visited wrapped base n info.isCachedPdf) })
    g1.nodes a

/-- Wrapper keys are above every plain graph identity. -/
theorem alookup_wrapNodes_none {ns : List (Nat × List Nat)} {base : Nat}
    {wrapped : List Nat} {a : Nat} (ha : a < base) :
    alookup (wrapNodes ns base wrapped) a = none := by
  rw [alookup_eq_none]
  intro hmem
  unfold wrapNodes at hmem
  rw [List.map_map] at hmem
  rcases List.mem_map.1 hmem with ⟨o, _, heq⟩
  simp only [Function.comp] at heq
  omega

theorem rewSubst_extend_ne {visited W : List Nat} {base c n x : Nat}
    {cached : Bool} (hx : x ≠ n) :
    rewSubst visited (W ++ [n]) base c cached x =
      rewSubst visited W base c cached x := by
  unfold rewSubst
  have : (x ∈ W ++ [n]) ↔ x ∈ W := by
    rw [List.mem_append]
    simp [hx]
  rw [if_congr (and_congr_left (fun _ => this)) rfl rfl]

theorem rewSubst_no_cond {visited W : List Nat} {base c x : Nat} {cached : Bool}
    (hC : ¬(c ∈ visited ∧ cached = false)) :
    rewSubst visited W base c cached x = x := by
  unfold rewSubst
  rw [if_neg (fun h => hC ⟨h.2.1, h.2.2⟩)]

theorem rewSubst_comp {visited W : List Nat} {base c n x : Nat} {cached : Bool}
    (hC : c ∈ visited ∧ cached = false) (hnW : n ∉ W) (hnb : n < base) :
    (if rewSubst visited W base c cached x = n then base + n
      else rewSubst visited W base c cached x) =
      rewSubst visited (W ++ [n]) base c cached x := by
  by_cases hxn : x = n
  · subst hxn
    have h1 : rewSubst visited W base c cached x = x := by
      unfold rewSubst
      rw [if_neg (fun h => hnW h.1)]
    rw [h1, if_pos rfl]
    unfold rewSubst
    rw [if_pos ⟨by simp, hC.1, hC.2⟩]
  · by_cases hxW : x ∈ W
    · have h1 : rewSubst visited W base c cached x = base + x := by
        unfold rewSubst
        rw [if_pos ⟨hxW, hC.1, hC.2⟩]
      have h2 : rewSubst visited (W ++ [n]) base c cached x = base + x := by
        unfold rewSubst
        rw [if_pos ⟨List.mem_append_left _ hxW, hC.1, hC.2⟩]
      rw [h1, h2, if_neg (by omega)]
    · have h1 : rewSubst visited W base c cached x = x := by
        unfold rewSubst
        rw [if_neg (fun h => hxW h.1)]
      have h2 : rewSubst visited (W ++ [n]) base c cached x = x := by
        unfold rewSubst
        refine if_neg (fun h => ?_)
        rcases List.mem_append.1 h.1 with hw | hn'
        · exact hxW hw
        · simp at hn'
          exact hxn hn'
      rw [h1, h2, if_neg hxn]

theorem rewSubst_eq_iff {visited W : List Nat} {base c n x : Nat} {cached : Bool}
    (hnb : n < base) (hnW : n ∉ W) :
    rewSubst visited W base c cached x = n ↔ x = n := by
  unfold rewSubst
  split
  · rename_i hcond
    constructor
    · intro h; omega
    · intro h
      subst h
      exact absurd hcond.1 hnW
  · exact Iff.rfl

/-- Creating the wrapper for `n` and redirecting its qualifying clients turns
a `W`-shaped rewritten graph into a `W ++ [n]`-shaped one. -/
theorem shape_step (g1 : Graph) (visited : List Nat) (ns : List (Nat × List Nat))
    (base : Nat) (hbase : g1.maxId < base)
    (hvb : ∀ v ∈ visited, v ≤ g1.maxId)
    {W : List Nat} {gr : Graph} {n : Nat} {cns : List Nat}
    (hshape : gr.nodes = g1.nodes.map (updNode visited W base) ++ wrapNodes ns base W)
    (hnW : n ∉ W) (hn : n ∈ visited) (hcns : alookup ns n = some cns) :
    (redirectAll visited n (base + n)
        { gr with nodes := gr.nodes ++ [(base + n, wrapperInfo n cns)] }).nodes =
      g1.nodes.map (updNode visited (W ++ [n]) base) ++
        wrapNodes ns base (W ++ [n]) := by
  have hnb : n < base := lt_of_le_of_lt (hvb n hn) hbase
  have hwrapW : wrapNodes ns base (W ++ [n]) =
      wrapNodes ns base W ++ [(base + n, wrapperInfo n cns)] := by
    unfold wrapNodes
    rw [List.map_append]
    simp [hcns]
  have E1 : (g1.nodes.map (updNode visited W base)).map
        (redirectFun visited n (base + n)) =
      g1.nodes.map (updNode visited (W ++ [n]) base) := by
    rw [List.map_map]
    refine List.map_congr_left ?_
    intro p _
    simp only [Function.comp]
    by_cases hC : p.1 ∈ visited ∧ p.2.isCachedPdf = false
    · by_cases hns : n ∈ p.2.servers
      · have hmem : n ∈ (updNode visited W base p).2.servers :=
          List.mem_map.2 ⟨n, hns, (rewSubst_eq_iff hnb hnW).2 rfl⟩
        unfold redirectFun
        rw [if_pos ⟨hC.1, hC.2, hmem⟩]
        unfold updNode
        refine congrArg (fun l => (p.1, { p.2 with servers := l })) ?_
        rw [List.map_map]
        refine List.map_congr_left ?_
        intro x _
        exact rewSubst_comp hC hnW hnb
      · have hmem : n ∉ (updNode visited W base p).2.servers := by
          intro hmem
          rcases List.mem_map.1 hmem with ⟨x, hx, heq⟩
          have hxn : x = n := (rewSubst_eq_iff hnb hnW).1 heq
          exact hns (hxn ▸ hx)
        unfold redirectFun
        rw [if_neg (fun h => hmem h.2.2)]
        unfold updNode
        refine congrArg (fun l => (p.1, { p.2 with servers := l })) ?_
        refine List.map_congr_left ?_
        intro x hx
        have hxn : x ≠ n := fun he => hns (he ▸ hx)
        exact (rewSubst_extend_ne hxn).symm
    · unfold redirectFun
      rw [if_neg (fun h => hC ⟨h.1, h.2.1⟩)]
      unfold updNode
      refine congrArg (fun l => (p.1, { p.2 with servers := l })) ?_
      refine List.map_congr_left ?_
      intro x _
      rw [rewSubst_no_cond hC, rewSubst_no_cond hC]
  have E2 : (wrapNodes ns base W).map (redirectFun visited n (base + n)) =
      wrapNodes ns base W := by
    have hfix : ∀ p ∈ wrapNodes ns base W,
        redirectFun visited n (base + n) p = p := by
      intro p hp
      unfold wrapNodes at hp
      rcases List.mem_map.1 hp with ⟨o, _, heq⟩
      unfold redirectFun
      refine if_neg (fun h => ?_)
      have hp1 : p.1 = base + o := by rw [← heq]
      have := hvb p.1 h.1
      omega
    calc (wrapNodes ns base W).map (redirectFun visited n (base + n))
        = (wrapNodes ns base W).map id := List.map_congr_left hfix
      _ = wrapNodes ns base W := List.map_id _
  have E3 : redirectFun visited n (base + n) (base + n, wrapperInfo n cns) =
      (base + n, wrapperInfo n cns) := by
    unfold redirectFun
    refine if_neg (fun h => ?_)
    have := hvb (base + n) h.1
    omega
  have hred : (redirectAll visited n (base + n)
      { gr with nodes := gr.nodes ++ [(base + n, wrapperInfo n cns)] }).nodes =
      (gr.nodes ++ [(base + n, wrapperInfo n cns)]).map
        (redirectFun visited n (base + n)) := rfl
  rw [hred, hshape, List.map_append, List.map_append, E1, E2,
    List.map_singleton, E3, hwrapW, List.append_assoc]

theorem shape_infoOf {g1 : Graph} {visited W : List Nat}
    {ns : List (Nat × List Nat)} {base : Nat} {gr : Graph}
    (hshape : gr.nodes = g1.nodes.map (updNode visited W base) ++ wrapNodes ns base W)
    {n : Nat} (hn : n < base) :
    gr.infoOf n = (g1.infoOf n).map (fun info =>
      { info with servers := info.servers.map (rewSubst visited W base n info.isCachedPdf) }) := by
  unfold Graph.infoOf
  rw [hshape, alookup_append, alookup_updNodes]
  cases halo : alookup g1.nodes n with
  | none =>
    simp only [Option.map_none']
    exact alookup_wrapNodes_none hn
  | some info => simp

theorem shape_isPdf {g1 : Graph} {visited W : List Nat}
    {ns : List (Nat × List Nat)} {base : Nat} {gr : Graph}
    (hshape : gr.nodes = g1.nodes.map (updNode visited W base) ++ wrapNodes ns base W)
    {n : Nat} (hn : n < base) : gr.isPdfN n = g1.isPdfN n := by
  unfold Graph.isPdfN
  rw [shape_infoOf hshape hn]
  cases g1.infoOf n <;> simp

theorem shape_selfNorm {g1 : Graph} {visited W : List Nat}
    {ns : List (Nat × List Nat)} {base : Nat} {gr : Graph}
    (hshape : gr.nodes = g1.nodes.map (updNode visited W base) ++ wrapNodes ns base W)
    {n : Nat} (hn : n < base) : gr.selfNormalizedN n = g1.selfNormalizedN n := by
  unfold Graph.selfNormalizedN
  rw [shape_infoOf hshape hn]
  cases g1.infoOf n <;> simp

theorem shape_isCached {g1 : Graph} {visited W : List Nat}
    {ns : List (Nat × List Nat)} {base : Nat} {gr : Graph}
    (hshape : gr.nodes = g1.nodes.map (updNode visited W base) ++ wrapNodes ns base W)
    {n : Nat} (hn : n < base) : gr.isCachedPdfN n = g1.isCachedPdfN n := by
  unfold Graph.isCachedPdfN
  rw [shape_infoOf hshape hn]
  cases g1.infoOf n <;> simp

/-- The rewrite loop turns a `W`-shaped graph into a
`W ++ (filter toWrap)`-shaped one and extends the ledger and the
side-effect trace accordingly. -/
theorem rewriteLoop_shape (g1 : Graph) (visited : List Nat)
    (ns : List (Nat × List Nat)) (base : Nat) (hbase : g1.maxId < base)
    (hvb : ∀ v ∈ visited, v ≤ g1.maxId) :
    ∀ rest W gr repl newA evtr st',
      gr.nodes = g1.nodes.map (updNode visited W base) ++ wrapNodes ns base W →
      (∀ x ∈ rest, x ∈ visited) →
      (∀ x ∈ rest, x ∉ W) →
      rest.Nodup →
      rewriteLoop visited ns base rest ⟨gr, repl, newA, evtr⟩ = .ok st' →
      st'.graph.nodes =
          g1.nodes.map (updNode visited (W ++ rest.filter (toWrap g1 ns)) base)
            ++ wrapNodes ns base (W ++ rest.filter (toWrap g1 ns)) ∧
        st'.replacedArgs = repl ++ rest.filter (toWrap g1 ns) ∧
        st'.newArgs = newA ++ (rest.filter (toWrap g1 ns)).map (fun o => base + o) ∧
        st'.evalTrace = evtr ++ (rest.filter (evalPred g1 ns)).map
          (fun o => (o, (alookup ns o).getD [])) := by
  intro rest
  induction rest with
  | nil =>
    intro W gr repl newA evtr st' hshape _ _ _ h
    simp only [rewriteLoop, Except.ok.injEq] at h
    subst h
    simp [hshape]
  | cons n rest ih =>
    intro W gr repl newA evtr st' hshape hrv hdisj hnd h
    have hnvis : n ∈ visited := hrv n (List.mem_cons_self _ _)
    have hnb : n < base := lt_of_le_of_lt (hvb n hnvis) hbase
    rw [rewriteLoop] at h
    have hpg : (⟨gr, repl, newA, evtr⟩ : RewSt).graph.isPdfN n = g1.isPdfN n :=
      shape_isPdf hshape hnb
    cases hpdf : g1.isPdfN n with
    | false =>
      rw [hpg] at h
      rw [hpdf] at h
      simp only [if_pos rfl] at h
      have htw : toWrap g1 ns n = false := by
        unfold toWrap
        rw [hpdf]
        rfl
      have hev : evalPred g1 ns n = false := by
        unfold evalPred
        rw [hpdf]
        rfl
      have := ih W gr repl newA evtr st' hshape
        (fun x hx => hrv x (List.mem_cons_of_mem _ hx))
        (fun x hx => hdisj x (List.mem_cons_of_mem _ hx))
        (List.Nodup.of_cons hnd) h
      simpa [List.filter_cons, htw, hev] using this
    | true =>
      rw [hpg, hpdf] at h
      simp only [Bool.true_eq_false, if_false] at h
      cases halo : alookup ns n with
      | none => rw [halo] at h; cases h
      | some cns =>
        simp only [halo] at h
        by_cases hz : cns = []
        · rw [if_pos hz] at h
          have htw : toWrap g1 ns n = false := by
            unfold toWrap
            rw [halo, hz, hpdf]
            rfl
          have hev : evalPred g1 ns n = false := by
            unfold evalPred
            rw [halo, hz, hpdf]
            rfl
          have := ih W gr repl newA evtr st' hshape
            (fun x hx => hrv x (List.mem_cons_of_mem _ hx))
            (fun x hx => hdisj x (List.mem_cons_of_mem _ hx))
            (List.Nodup.of_cons hnd) h
          simpa [List.filter_cons, htw, hev] using this
        · rw [if_neg hz] at h
          have hev : evalPred g1 ns n = true := by
            unfold evalPred
            rw [halo, hpdf]
            simpa using hz
          have hsg : (⟨gr, repl, newA, evtr⟩ : RewSt).graph.selfNormalizedN n
              = g1.selfNormalizedN n := shape_selfNorm hshape hnb
          have hcg : (⟨gr, repl, newA, evtr⟩ : RewSt).graph.isCachedPdfN n
              = g1.isCachedPdfN n := shape_isCached hshape hnb
          rw [hsg, hcg] at h
          by_cases hskip : g1.selfNormalizedN n = true ∧ g1.isCachedPdfN n = false
          · rw [if_pos hskip] at h
            have htw : toWrap g1 ns n = false := by
              unfold toWrap
              rw [halo, hpdf, hskip.1, hskip.2]
              simp
            have := ih W gr repl newA (evtr ++ [(n, cns)]) st' hshape
              (fun x hx => hrv x (List.mem_cons_of_mem _ hx))
              (fun x hx => hdisj x (List.mem_cons_of_mem _ hx))
              (List.Nodup.of_cons hnd) h
            rw [List.filter_cons, List.filter_cons]
            simp only [htw, hev, if_true, if_false]
            refine ⟨this.1, this.2.1, this.2.2.1, ?_⟩
            rw [this.2.2.2]
            simp [halo]
          · rw [if_neg hskip] at h
            have htw : toWrap g1 ns n = true := by
              unfold toWrap
              rw [halo, hpdf]
              simp only [Bool.true_and]
              have hcne : ¬ cns.isEmpty := by
                cases cns
                · exact absurd rfl hz
                · simp
              rw [Bool.not_eq_true] at hcne
              cases hs : g1.selfNormalizedN n <;> cases hc : g1.isCachedPdfN n <;>
                simp_all
            have hstep := shape_step g1 visited ns base hbase hvb hshape
              (hdisj n (List.mem_cons_self _ _)) hnvis halo
            have := ih (W ++ [n]) _ (repl ++ [n]) (newA ++ [base + n])
              (evtr ++ [(n, cns)]) st' hstep
              (fun x hx => hrv x (List.mem_cons_of_mem _ hx))
              (fun x hx => by
                rw [List.mem_append]
                rintro (hxw | hxn)
                · exact hdisj x (List.mem_cons_of_mem _ hx) hxw
                · simp at hxn
                  subst hxn
                  exact (List.nodup_cons.1 hnd).1 hx)
              (List.Nodup.of_cons hnd) h
            rw [List.filter_cons, List.filter_cons]
            simp only [htw, hev, if_true]
            obtain ⟨c1, c2, c3, c4⟩ := this
            refine ⟨?_, ?_, ?_, ?_⟩
            · rw [c1, List.append_assoc]
              rfl
            · rw [c2, List.append_assoc]
              rfl
            · rw [c3, List.append_assoc]
              rfl
            · rw [c4]
              simp [halo]

/-! ## Characterization of a successful unfoldIntegrals run -/

theorem propInv_init (g : Graph) : PropInv g ⟨[], [], []⟩ := by
  refine ⟨List.nodup_nil, List.nodup_nil, ?_, List.nodup_nil, ?_⟩
  · intro n
    simp
  · intro n hn
    simp at hn

theorem shape_nil (g1 : Graph) (visited : List Nat)
    (ns : List (Nat × List Nat)) (base : Nat) :
    g1.nodes = g1.nodes.map (updNode visited [] base) ++ wrapNodes ns base [] := by
  rw [List.map_congr_left (fun p _ => updNode_nil visited base p), List.map_id']
  simp [wrapNodes]

theorem unfold_shape {g1 : Graph} {top : Nat} {normSet : List Nat} {fuel : Nat}
    {out : UnfoldOut} (hne : normSet ≠ [])
    (htop : top ∈ g1.nodes.map Prod.fst)
    (h : unfoldIntegrals g1 top normSet fuel = .ok out) :
    out.graph.nodes =
        g1.nodes.map (updNode out.visited (wrappedOf g1 out) (g1.maxId + 1))
          ++ wrapNodes out.normSets (g1.maxId + 1) (wrappedOf g1 out) ∧
      out.replacedArgs = wrappedOf g1 out ∧
      out.newArgs = (wrappedOf g1 out).map (fun o => g1.maxId + 1 + o) ∧
      out.evalTrace = (out.visited.filter (evalPred g1 out.normSets)).map
        (fun o => (o, (alookup out.normSets o).getD [])) ∧
      out.visited.Nodup ∧
      (∀ v ∈ out.visited, v ≤ g1.maxId) ∧
      (∀ v ∈ out.visited, ReachV g1 top v) ∧
      (∀ n, n ∈ out.preNormSets.map Prod.fst ↔
        (n ∈ out.visited ∧ g1.isPdfN n = true)) ∧
      (out.preNormSets.map Prod.fst).Nodup ∧
      (out.trace.filter (fun n => g1.isPdfN n)).Nodup := by
  rw [unfoldIntegrals, if_neg hne] at h
  cases htrav : treeNodeServerListAndNormSets g1 fuel top
      (normSet.insertionSort (· ≤ ·)) ⟨[], [], []⟩ with
  | error e => simp [htrav] at h
  | ok st =>
    simp only [htrav] at h
    cases hnarrow : narrowLoop (buildServerLists g1 fuel top) fuel st.list
        st.normSets [] with
    | error e => simp [hnarrow] at h
    | ok nm =>
      obtain ⟨ns', memo'⟩ := nm
      simp only [hnarrow] at h
      cases hrew : rewriteLoop st.list ns' (g1.maxId + 1) st.list
          ⟨g1, [], [], []⟩ with
      | error e => simp [hrew] at h
      | ok rst =>
        simp only [hrew, Except.ok.injEq] at h
        subst h
        have hinv : PropInv g1 st := treeNode_inv htrav (propInv_init g1)
        have hvallIds : ∀ v ∈ st.list, v ∈ g1.allIds := by
          refine treeNode_P (fun x => x ∈ g1.allIds)
            (fun p s _ _ _ hs _ => server_mem_allIds_of_edge hs)
            fuel top _ _ st ?_ (by intro x hx; cases hx) htrav
          rcases List.mem_map.1 htop with ⟨p, hp, hpe⟩
          exact hpe ▸ key_mem_allIds hp
        have hvb : ∀ v ∈ st.list, v ≤ g1.maxId :=
          fun v hv => mem_allIds_le_maxId (hvallIds v hv)
        have hreach : ∀ v ∈ st.list, ReachV g1 top v := by
          refine treeNode_P (ReachV g1 top)
            (fun p s hp hd hf hs hv => Relation.ReflTransGen.tail hp ⟨hs, hv, hd, hf⟩)
            fuel top _ _ st Relation.ReflTransGen.refl (by intro x hx; cases hx) htrav
        have hrshape := rewriteLoop_shape g1 st.list ns' (g1.maxId + 1)
          (Nat.lt_succ_self _) hvb st.list [] g1 [] [] [] rst
          (shape_nil g1 st.list ns' (g1.maxId + 1))
          (fun x hx => hx) (fun x _ hx => by cases hx) hinv.1 hrew
        obtain ⟨c1, c2, c3, c4⟩ := hrshape
        refine ⟨?_, ?_, ?_, ?_, hinv.1, hvb, hreach, hinv.2.2.1, hinv.2.1,
          hinv.2.2.2.1⟩
        · simpa [wrappedOf] using c1
        · simpa [wrappedOf] using c2
        · simpa [wrappedOf] using c3
        · simpa using c4

/-! ## Post-rewrite reachability and exact rollback -/

theorem keys_none_of_gt {g : Graph} {x : Nat} (hx : g.maxId < x) :
    alookup g.nodes x = none := by
  rw [alookup_eq_none]
  intro hmem
  rcases List.mem_map.1 hmem with ⟨p, hp, hpe⟩
  have := mem_allIds_le_maxId (key_mem_allIds hp)
  omega

theorem alookup_wrapNodes_mem {ns : List (Nat × List Nat)} {base : Nat}
    {W : List Nat} {o : Nat} (ho : o ∈ W) :
    alookup (wrapNodes ns base W) (base + o) =
      some (wrapperInfo o ((alookup ns o).getD [])) := by
  induction W with
  | nil => cases ho
  | cons w rest ih =>
    unfold wrapNodes
    simp only [List.map_cons]
    by_cases hwo : w = o
    · subst hwo
      simp [alookup]
    · have : ¬ (base + w = base + o) := by omega
      simp only [alookup, if_neg this]
      rcases List.mem_cons.1 ho with h | h
      · exact absurd h.symm hwo
      · exact ih h

theorem alookup_zip_none {W : List Nat} {base x : Nat} (hx : x < base) :
    alookup ((W.map (fun o => base + o)).zip W) x = none := by
  induction W with
  | nil => rfl
  | cons w rest ih =>
    simp only [List.map_cons, List.zip_cons_cons, alookup]
    rw [if_neg (by omega)]
    exact ih

theorem alookup_zip_mem {W : List Nat} {base o : Nat} (ho : o ∈ W) :
    alookup ((W.map (fun o => base + o)).zip W) (base + o) = some o := by
  induction W with
  | nil => cases ho
  | cons w rest ih =>
    simp only [List.map_cons, List.zip_cons_cons, alookup]
    by_cases hwo : w = o
    · subst hwo
      simp
    · rw [if_neg (by omega)]
      rcases List.mem_cons.1 ho with h | h
      · exact absurd h.symm hwo
      · exact ih h

theorem reachN_mono {g : Graph} : ∀ {k a b : Nat}, reachN g k a b = true →
    reachN g (k + 1) a b = true := by
  intro k
  induction k with
  | zero =>
    intro a b h
    simp [reachN] at h
    subst h
    exact reachN_refl _ _ _
  | succ k ih =>
    intro a b h
    rw [reachN] at h
    rw [reachN]
    simp only [Bool.or_eq_true, beq_iff_eq, List.any_eq_true] at h ⊢
    rcases h with h | ⟨s, hsm, hsr⟩
    · exact Or.inl h
    · exact Or.inr ⟨s, hsm, ih hsr⟩

/-- One value edge of the pre-rewrite graph is simulated by at most two
server edges of the rewritten graph: directly, or through the wrapper. -/
theorem reachN_post_of_ReachV {g1 : Graph} {visited W : List Nat}
    {ns : List (Nat × List Nat)} {gr : Graph} {rk1 : Nat → Nat}
    (hshape : gr.nodes = g1.nodes.map (updNode visited W (g1.maxId + 1))
      ++ wrapNodes ns (g1.maxId + 1) W)
    (hrk1 : RankedG g1 rk1)
    {a v : Nat} (hreach : ReachV g1 a v) :
    ∀ F, 2 * rk1 a ≤ F → reachN gr F a v = true := by
  induction hreach using Relation.ReflTransGen.head_induction_on with
  | refl => intro F _; exact reachN_refl gr F v
  | head hedge htail ih =>
    rename_i p c
    intro F hF
    obtain ⟨hs, hv, hd, hf⟩ := hedge
    have hrklt : rk1 c < rk1 p := rank_lt_of_edge hrk1 hs
    have hinfo : ∃ info, g1.infoOf p = some info ∧ c ∈ info.servers := by
      unfold Graph.serversOf at hs
      cases hio : g1.infoOf p with
      | none => rw [hio] at hs; simp at hs
      | some info =>
        rw [hio] at hs; simp at hs
        exact ⟨info, rfl, hs⟩
    obtain ⟨info, hio, hcs⟩ := hinfo
    have hples : p ≤ g1.maxId := by
      have : p ∈ g1.nodes.map Prod.fst := by
        rw [← alookup_isSome]
        unfold Graph.infoOf at hio
        rw [hio]
        rfl
      rcases List.mem_map.1 this with ⟨q, hq, hqe⟩
      exact hqe ▸ mem_allIds_le_maxId (key_mem_allIds hq)
    have hpostinfo : gr.infoOf p = some { info with
        servers := info.servers.map
          (rewSubst visited W (g1.maxId + 1) p info.isCachedPdf) } := by
      rw [shape_infoOf hshape (by omega), hio]
      rfl
    have hcmem : rewSubst visited W (g1.maxId + 1) p info.isCachedPdf c ∈
        gr.serversOf p := by
      rw [serversOf_eq_of_lookup hpostinfo]
      exact List.mem_map.2 ⟨c, hcs, rfl⟩
    match F, hF with
    | 0, hF => exact absurd hF (by omega)
    | 1, hF => exact absurd hF (by omega)
    | F + 2, hF =>
      have hFc : 2 * rk1 c ≤ F := by omega
      unfold rewSubst at hcmem
      split at hcmem
      · rename_i hcond
        -- redirected: go through the wrapper
        have hwinfo : gr.infoOf (g1.maxId + 1 + c) =
            some (wrapperInfo c ((alookup ns c).getD [])) := by
          unfold Graph.infoOf
          rw [hshape, alookup_append, alookup_updNodes,
            keys_none_of_gt (by omega)]
          simp only [Option.map_none']
          exact alookup_wrapNodes_mem hcond.1
        have hwserv : c ∈ gr.serversOf (g1.maxId + 1 + c) := by
          rw [serversOf_eq_of_lookup hwinfo]
          exact List.mem_cons_self _ _
        have h1 : reachN gr (F + 1) (g1.maxId + 1 + c) v = true :=
          reachN_trans_edge hwserv (ih F hFc)
        exact reachN_trans_edge hcmem h1
      · -- kept: direct edge
        exact reachN_trans_edge hcmem (reachN_mono (ih F hFc))

/-! ## Facts about the aggregator-wrapped graph and the constructor -/

theorem addDummy_nodes (g : Graph) (top : Nat) :
    (addDummy g top).nodes = g.nodes ++ [(g.maxId + 1, dummyInfo top)] := rfl

theorem addDummy_allIds (g : Graph) (top : Nat) :
    (addDummy g top).allIds = g.allIds ++ [g.maxId + 1, top] := by
  unfold Graph.allIds
  rw [addDummy_nodes, List.flatMap_append]
  rfl

theorem addDummy_maxId_ge (g : Graph) (top : Nat) {x : Nat} (hx : x ∈ g.allIds) :
    x ≤ (addDummy g top).maxId := by
  refine mem_allIds_le_maxId ?_
  rw [addDummy_allIds]
  exact List.mem_append_left _ hx

theorem addDummy_d_le_maxId (g : Graph) (top : Nat) :
    g.maxId + 1 ≤ (addDummy g top).maxId := by
  refine mem_allIds_le_maxId ?_
  rw [addDummy_allIds]
  refine List.mem_append_right _ ?_
  simp

theorem addDummy_d_key (g : Graph) (top : Nat) :
    g.maxId + 1 ∈ (addDummy g top).nodes.map Prod.fst := by
  rw [addDummy_nodes, List.map_append]
  refine List.mem_append_right _ ?_
  simp

theorem addDummy_serversOf_d (g : Graph) (top : Nat) :
    (addDummy g top).serversOf (g.maxId + 1) = [top] := by
  unfold Graph.serversOf Graph.infoOf
  rw [addDummy_nodes, alookup_append, keys_none_of_gt (Nat.lt_succ_self _)]
  simp [alookup, dummyInfo]

theorem addDummy_ranked {g : Graph} {rk : Nat → Nat} {top : Nat}
    (hrk : RankedG g rk) (htop : top ∈ g.nodes.map Prod.fst) :
    RankedG (addDummy g top)
      (fun x => if x = g.maxId + 1 then rk top + 1 else rk x) := by
  have htople : top ≤ g.maxId := by
    rcases List.mem_map.1 htop with ⟨q, hq, hqe⟩
    exact hqe ▸ mem_allIds_le_maxId (key_mem_allIds hq)
  intro p hp s hs
  rw [addDummy_nodes] at hp
  rcases List.mem_append.1 hp with hp | hp
  · have hkey : p.1 ≤ g.maxId := mem_allIds_le_maxId (key_mem_allIds hp)
    have hserv : s ≤ g.maxId := mem_allIds_le_maxId (server_mem_allIds hp hs)
    simp only [if_neg (by omega : ¬ s = g.maxId + 1),
      if_neg (by omega : ¬ p.1 = g.maxId + 1)]
    exact hrk p hp s hs
  · simp only [List.mem_singleton] at hp
    subst hp
    simp only [dummyInfo, List.mem_singleton] at hs
    subst hs
    simp only [if_neg (by omega : ¬ s = g.maxId + 1)]
    simp

/-- The state of a successfully constructed unfolder with a non-empty
normalization set, read off through the rewrite-shape analysis. -/
theorem construct_shape {g : Graph} {top : Nat} {ns : List Nat} {fuel : Nat}
    {niu : NormalizationIntegralUnfolder} (hne : ns ≠ [])
    (h : NIUconstruct g top ns fuel = .ok niu) :
    niu.graph.nodes = (addDummy g top).nodes.map
        (updNode niu.visited
          (niu.visited.filter (toWrap (addDummy g top) niu.normSets))
          ((addDummy g top).maxId + 1))
      ++ wrapNodes niu.normSets ((addDummy g top).maxId + 1)
        (niu.visited.filter (toWrap (addDummy g top) niu.normSets)) ∧
    niu.replacedArgs =
      niu.visited.filter (toWrap (addDummy g top) niu.normSets) ∧
    niu.newArgs = (niu.visited.filter (toWrap (addDummy g top) niu.normSets)).map
      (fun o => (addDummy g top).maxId + 1 + o) ∧
    niu.evalTrace = (niu.visited.filter (evalPred (addDummy g top) niu.normSets)).map
      (fun o => (o, (alookup niu.normSets o).getD [])) ∧
    niu.visited.Nodup ∧
    (∀ v ∈ niu.visited, v ≤ (addDummy g top).maxId) ∧
    (∀ v ∈ niu.visited, ReachV (addDummy g top) (g.maxId + 1) v) ∧
    (∀ n, n ∈ niu.preNormSets.map Prod.fst ↔
      (n ∈ niu.visited ∧ (addDummy g top).isPdfN n = true)) ∧
    (niu.preNormSets.map Prod.fst).Nodup ∧
    (niu.trace.filter (fun n => (addDummy g top).isPdfN n)).Nodup ∧
    niu.topWrapper = g.maxId + 1 ∧
    niu.normSetWasEmpty = false := by
  unfold NIUconstruct at h
  cases hout : unfoldIntegrals (addDummy g top) (g.maxId + 1) ns fuel with
  | error e => simp [hout] at h
  | ok out =>
    simp only [hout, Except.ok.injEq] at h
    subst h
    have hbundle := unfold_shape hne (addDummy_d_key g top) hout
    obtain ⟨c1, c2, c3, c4, c5, c6, c7, c8, c9, c10⟩ := hbundle
    exact ⟨c1, c2, c3, c4, c5, c6, c7, c8, c9, c10, rfl, by simp [hne]⟩

theorem foldFun_key (g : Graph) (top fuel : Nat) (pairs : List (Nat × Nat))
    (p : Nat × NodeInfo) : (foldFun g top fuel pairs p).1 = p.1 := by
  unfold foldFun
  split <;> rfl

theorem foldFun_eq_pos (q : Nat × NodeInfo) {g : Graph} {top fuel : Nat}
    (pairs : List (Nat × Nat)) (h : reachN g fuel top q.1 = true) :
    foldFun g top fuel pairs q =
      (q.1, { q.2 with
        servers := (q.2.servers.map (fun s => (alookup pairs s).getD s)) }) := by
  unfold foldFun
  rw [if_pos h]

theorem foldFun_eq_neg (q : Nat × NodeInfo) {g : Graph} {top fuel : Nat}
    (pairs : List (Nat × Nat)) (h : ¬ reachN g fuel top q.1 = true) :
    foldFun g top fuel pairs q = q := by
  unfold foldFun
  rw [if_neg h]

/-- Destroying a successfully constructed unfolder (non-empty normalization
set) restores exactly the original node entries: the dummy aggregator and
the wrappers disappear and every surviving node's record, including its
server list, is identical to the pre-construction one. -/
theorem destroy_restores {g : Graph} {top : Nat} {ns : List Nat}
    {fuel fuelF : Nat} {rk : Nat → Nat} {niu : NormalizationIntegralUnfolder}
    (hrk : RankedG g rk) (htop : top ∈ g.nodes.map Prod.fst)
    (hfF : 2 * (rk top + 1) ≤ fuelF) (hne : ns ≠ [])
    (h : NIUconstruct g top ns fuel = .ok niu) :
    (NIUdestroy niu fuelF).nodes = g.nodes := by
  obtain ⟨c1, c2, c3, _, _, c6, c7, _, _, _, c11, c12⟩ := construct_shape hne h
  have hrk1 : RankedG (addDummy g top)
      (fun x => if x = g.maxId + 1 then rk top + 1 else rk x) :=
    addDummy_ranked hrk htop
  have hreachPost : ∀ v ∈ niu.visited,
      reachN niu.graph fuelF (g.maxId + 1) v = true := by
    intro v hv
    refine reachN_post_of_ReachV c1 hrk1 (c7 v hv) fuelF ?_
    split
    · omega
    · rename_i hcontra
      exact absurd rfl hcontra
  unfold NIUdestroy
  rw [c12]
  simp only [Bool.false_eq_true, if_false]
  have hfold : (foldIntegrals niu.topWrapper niu.replacedArgs niu.newArgs fuelF
      niu.graph).nodes = niu.graph.nodes.map
        (foldFun niu.graph niu.topWrapper fuelF
          (niu.newArgs.zip niu.replacedArgs)) := rfl
  rw [hfold, c1, List.map_append, List.map_map]
  have hA : (addDummy g top).nodes.map
      ((foldFun niu.graph niu.topWrapper fuelF (niu.newArgs.zip niu.replacedArgs))
        ∘ (updNode niu.visited
            (niu.visited.filter (toWrap (addDummy g top) niu.normSets))
            ((addDummy g top).maxId + 1))) = (addDummy g top).nodes := by
    refine (List.map_congr_left ?_).trans (List.map_id' _)
    intro p hp
    simp only [Function.comp]
    have hkey : p.1 ≤ (addDummy g top).maxId :=
      mem_allIds_le_maxId (key_mem_allIds hp)
    by_cases hre : reachN niu.graph fuelF niu.topWrapper p.1 = true
    · rw [foldFun_eq_pos (updNode niu.visited
        (niu.visited.filter (toWrap (addDummy g top) niu.normSets))
        ((addDummy g top).maxId + 1) p) (niu.newArgs.zip niu.replacedArgs) hre]
      show (p.1, { p.2 with
        servers := ((p.2.servers.map (rewSubst niu.visited
          (niu.visited.filter (toWrap (addDummy g top) niu.normSets))
          ((addDummy g top).maxId + 1) p.1 p.2.isCachedPdf)).map
            (fun s => (alookup (niu.newArgs.zip niu.replacedArgs) s).getD s)) }) = p
      have hback : ((p.2.servers.map (rewSubst niu.visited
          (niu.visited.filter (toWrap (addDummy g top) niu.normSets))
          ((addDummy g top).maxId + 1) p.1 p.2.isCachedPdf)).map
            (fun s => (alookup (niu.newArgs.zip niu.replacedArgs) s).getD s))
          = p.2.servers := by
        rw [List.map_map]
        refine (List.map_congr_left ?_).trans (List.map_id' _)
        intro x hx
        have hxle : x ≤ (addDummy g top).maxId :=
          mem_allIds_le_maxId (server_mem_allIds hp hx)
        simp only [Function.comp]
        unfold rewSubst
        split
        · rename_i hcond
          rw [c3, c2, alookup_zip_mem hcond.1]
          rfl
        · rw [c3, c2, alookup_zip_none (by omega)]
          rfl
      rw [hback]
    · rw [foldFun_eq_neg (updNode niu.visited
        (niu.visited.filter (toWrap (addDummy g top) niu.normSets))
        ((addDummy g top).maxId + 1) p) (niu.newArgs.zip niu.replacedArgs) hre]
      have hnv : p.1 ∉ niu.visited := fun hv => hre (by
        rw [c11]
        exact hreachPost p.1 hv)
      unfold updNode
      rw [List.map_congr_left (fun x _ => by
        unfold rewSubst
        exact if_neg (fun hc => hnv hc.2.1)), List.map_id']
  rw [hA]
  rw [addDummy_nodes, List.filter_append, List.filter_append]
  have hg : g.nodes.filter (fun p =>
      decide (p.1 ≠ niu.topWrapper ∧ p.1 ∉ niu.newArgs)) = g.nodes := by
    refine List.filter_eq_self.2 ?_
    intro p hp
    have hkey : p.1 ≤ g.maxId := mem_allIds_le_maxId (key_mem_allIds hp)
    have h1 : p.1 ≠ niu.topWrapper := by rw [c11]; omega
    have h2 : p.1 ∉ niu.newArgs := by
      rw [c3]
      intro hmem
      rcases List.mem_map.1 hmem with ⟨o, _, hoe⟩
      have := addDummy_d_le_maxId g top
      omega
    simp [h1, h2]
  have hd : ([(g.maxId + 1, dummyInfo top)] :
      List (Nat × NodeInfo)).filter (fun p =>
        decide (p.1 ≠ niu.topWrapper ∧ p.1 ∉ niu.newArgs)) = [] := by
    rw [c11]
    simp
  have hw : ((wrapNodes niu.normSets ((addDummy g top).maxId + 1)
      (niu.visited.filter (toWrap (addDummy g top) niu.normSets))).map
        (foldFun niu.graph niu.topWrapper fuelF
          (niu.newArgs.zip niu.replacedArgs))).filter (fun p =>
        decide (p.1 ≠ niu.topWrapper ∧ p.1 ∉ niu.newArgs)) = [] := by
    rw [List.filter_eq_nil_iff]
    intro q hq
    rcases List.mem_map.1 hq with ⟨w, hw', hwe⟩
    unfold wrapNodes at hw'
    rcases List.mem_map.1 hw' with ⟨o, ho, hoe⟩
    have hq1 : q.1 = (addDummy g top).maxId + 1 + o := by
      rw [← hwe, foldFun_key, ← hoe]
    have hmem : q.1 ∈ niu.newArgs := by
      rw [c3, hq1]
      exact List.mem_map.2 ⟨o, ho, rfl⟩
    simp [hmem]
  rw [hg, hd, hw, List.append_nil, List.append_nil]

/-! ## The empty-normalization-set short-circuit -/

theorem construct_empty_eq (g : Graph) (top fuel : Nat) :
    NIUconstruct g top [] fuel = .ok
      { graph := addDummy g top, topWrapper := g.maxId + 1,
        normSetWasEmpty := true, visited := [], preNormSets := [],
        normSets := [], replacedArgs := [], newArgs := [], evalTrace := [],
        trace := [], arg := top } := by
  unfold NIUconstruct unfoldIntegrals
  simp [addDummy_serversOf_d]

theorem filter_keep_small (g : Graph) (d : Nat) (ex : List Nat)
    (hd : g.maxId < d) (hex : ∀ x ∈ ex, g.maxId < x) :
    g.nodes.filter (fun p => decide (p.1 ≠ d ∧ p.1 ∉ ex)) = g.nodes := by
  refine List.filter_eq_self.2 ?_
  intro p hp
  have hkey : p.1 ≤ g.maxId := mem_allIds_le_maxId (key_mem_allIds hp)
  have h1 : p.1 ≠ d := by omega
  have h2 : p.1 ∉ ex := fun hmem => by
    have := hex p.1 hmem
    omega
  simp [h1, h2]

theorem destroy_empty (g : Graph) (top fuelF : Nat) :
    (NIUdestroy
      { graph := addDummy g top, topWrapper := g.maxId + 1,
        normSetWasEmpty := true, visited := [], preNormSets := [],
        normSets := [], replacedArgs := [], newArgs := [], evalTrace := [],
        trace := [], arg := top } fuelF).nodes = g.nodes := by
  show (List.filter (fun p => decide (p.1 ≠ g.maxId + 1 ∧ p.1 ∉ ([] : List Nat)))
    (addDummy g top).nodes) = g.nodes
  rw [addDummy_nodes, List.filter_append]
  rw [filter_keep_small g (g.maxId + 1) [] (Nat.lt_succ_self _) (by simp)]
  simp

/-- Construct-level narrowing: every recorded normalization set of a
successful construction is related to its narrowed version by `NarrowRel`. -/
theorem construct_narrow {g : Graph} {rk : Nat → Nat} {top : Nat}
    {ns : List Nat} {fuel : Nat} {niu : NormalizationIntegralUnfolder}
    (hWF : GraphWF (addDummy g top)) (hrk : RankedG (addDummy g top) rk)
    (hfuel : rk (g.maxId + 1) < fuel)
    (h : NIUconstruct g top ns fuel = .ok niu) :
    ∀ n s, alookup niu.preNormSets n = some s →
      ∃ s', alookup niu.normSets n = some s' ∧
        NarrowRel (addDummy g top) niu.visited n s s' := by
  intro n s hpre
  unfold NIUconstruct at h
  cases hout : unfoldIntegrals (addDummy g top) (g.maxId + 1) ns fuel with
  | error e => simp [hout] at h
  | ok out =>
    simp only [hout, Except.ok.injEq] at h
    subst h
    have hpre1 : alookup out.preNormSets n = some s := hpre
    rw [unfoldIntegrals] at hout
    by_cases hne : ns = []
    · rw [if_pos hne] at hout
      simp only [Except.ok.injEq] at hout
      subst hout
      exact Option.noConfusion hpre1
    · rw [if_neg hne] at hout
      cases htrav : treeNodeServerListAndNormSets (addDummy g top) fuel
          (g.maxId + 1) (ns.insertionSort (· ≤ ·)) ⟨[], [], []⟩ with
      | error e => simp only [htrav] at hout; cases hout
      | ok st =>
        simp only [htrav] at hout
        cases hnarrow : narrowLoop (buildServerLists (addDummy g top) fuel
            (g.maxId + 1)) fuel st.list st.normSets [] with
        | error e => simp only [hnarrow] at hout; cases hout
        | ok nm =>
          obtain ⟨ns', memo'⟩ := nm
          simp only [hnarrow] at hout
          cases hrew : rewriteLoop st.list ns' ((addDummy g top).maxId + 1)
              st.list ⟨addDummy g top, [], [], []⟩ with
          | error e => simp only [hrew] at hout; cases hout
          | ok rst =>
            simp only [hrew, Except.ok.injEq] at hout
            subst hout
            have hpre2 : alookup st.normSets n = some s := hpre1
            have hinv := treeNode_inv htrav (propInv_init (addDummy g top))
            have hkeysSL : ∀ x ∈ st.list, x ∈ (buildServerLists (addDummy g top)
                fuel (g.maxId + 1)).map Prod.fst := by
              refine treeNode_P (fun x => x ∈ (buildServerLists (addDummy g top)
                  fuel (g.maxId + 1)).map Prod.fst) ?_ fuel (g.maxId + 1) _ _ st
                (buildSL_top_mem _ _ _) (by intro x hx; cases hx) htrav
              intro p s2 hp _ _ hs2 _
              have hsome : (alookup (buildServerLists (addDummy g top) fuel
                  (g.maxId + 1)) p).isSome :=
                (alookup_isSome _ _).2 hp
              cases hl : alookup (buildServerLists (addDummy g top) fuel
                  (g.maxId + 1)) p with
              | none => rw [hl] at hsome; simp at hsome
              | some l =>
                exact buildSL_closed (addDummy g top) hWF hrk hfuel p l hl s2
                  ((buildSL_faithful _ _ _ hl s2).2 hs2)
            have hkeys : ∀ p ∈ st.normSets, p.1 ∈ (buildServerLists
                (addDummy g top) fuel (g.maxId + 1)).map Prod.fst := by
              intro p hp
              exact hkeysSL p.1
                ((hinv.2.2.1 p.1).1 (List.mem_map.2 ⟨p, hp, rfl⟩)).1
            obtain ⟨s', hs', hrel⟩ := narrowLoop_spec
              (fun a l hl => buildSL_faithful (addDummy g top) fuel
                (g.maxId + 1) hl)
              (buildSL_closed (addDummy g top) hWF hrk hfuel)
              st.normSets [] ns' memo' (memoGood_nil _) hkeys hnarrow n s hpre2
            exact ⟨s', hs', hrel⟩

/-! ## Claim theorems -/

/-- C1 (round-trip): destroying a constructed unfolder restores the exact
pre-construction wiring.  Acyclicity of the computation graph is witnessed by
the rank function `rk`; `fuelF` bounds the rollback's reachability scan and
must cover twice the rank of the top node (a rewritten path is at most twice
as long as the original one).  The destroyed graph's node entries — hence
every node's server list and every node's client list — are identical to the
original ones, and no surviving server list references a wrapper node or the
aggregator. -/
theorem c1_roundtrip_restores_wiring (g : Graph) (top : Nat) (ns : List Nat)
    (fuel fuelF : Nat) (rk : Nat → Nat) (niu : NormalizationIntegralUnfolder)
    (hrk : RankedG g rk) (htop : top ∈ g.nodes.map Prod.fst)
    (hfF : 2 * (rk top + 1) ≤ fuelF)
    (h : NIUconstruct g top ns fuel = .ok niu) :
    (NIUdestroy niu fuelF).nodes = g.nodes ∧
      (∀ x, (NIUdestroy niu fuelF).clientsOf x = g.clientsOf x) ∧
      (∀ p ∈ (NIUdestroy niu fuelF).nodes, ∀ s ∈ p.2.servers,
        s ∉ niu.newArgs ∧ s ≠ niu.topWrapper) := by
  by_cases hne : ns = []
  · subst hne
    rw [construct_empty_eq] at h
    simp only [Except.ok.injEq] at h
    subst h
    refine ⟨destroy_empty g top fuelF, ?_, ?_⟩
    · intro x
      unfold Graph.clientsOf
      rw [destroy_empty g top fuelF]
    · intro p hp s hs
      rw [destroy_empty g top fuelF] at hp
      have hsle : s ≤ g.maxId := mem_allIds_le_maxId (server_mem_allIds hp hs)
      constructor
      · show s ∉ ([] : List Nat)
        exact List.not_mem_nil s
      · show s ≠ g.maxId + 1
        omega
  · have hmain := destroy_restores hrk htop hfF hne h
    obtain ⟨_, _, c3, _, _, _, _, _, _, _, c11, _⟩ := construct_shape hne h
    refine ⟨hmain, ?_, ?_⟩
    · intro x
      unfold Graph.clientsOf
      rw [hmain]
    · intro p hp s hs
      rw [hmain] at hp
      have hsle : s ≤ g.maxId := mem_allIds_le_maxId (server_mem_allIds hp hs)
      constructor
      · rw [c3]
        intro hmem
        rcases List.mem_map.1 hmem with ⟨o, _, hoe⟩
        have := addDummy_d_le_maxId g top
        omega
      · rw [c11]
        omega

/-- Witness for C1 at a concrete two-node graph. -/
theorem c1_witness : ∃ niu, NIUconstruct exG1 1 [0] 30 = .ok niu ∧
    (NIUdestroy niu 30).nodes = exG1.nodes := by
  cases hc : NIUconstruct exG1 1 [0] 30 with
  | error e =>
    exfalso
    have hok : (NIUconstruct exG1 1 [0] 30).toOption.isSome = true := by decide
    rw [hc] at hok
    simp [Except.toOption] at hok
  | ok niu =>
    exact ⟨niu, rfl,
      (c1_roundtrip_restores_wiring exG1 1 [0] 30 30 (fun n => n) niu
        (by unfold RankedG; decide) (by decide) (by decide) hc).1⟩

/-- C3 (no-op on empty set): with an empty normalization set the constructor
performs no propagation and no rewrite — the graph keeps exactly its nodes
plus the freshly added pass-through aggregator, the ledger and both
instrumentation traces are empty, the effective root is the original top
node — and destruction (which skips the fold entirely) restores the node
set exactly. -/
theorem c3_empty_normset_noop (g : Graph) (top fuel fuelF : Nat) :
    ∃ niu, NIUconstruct g top [] fuel = .ok niu ∧
      niu.graph.nodes = g.nodes ++ [(g.maxId + 1, dummyInfo top)] ∧
      niu.replacedArgs = [] ∧ niu.newArgs = [] ∧ niu.evalTrace = [] ∧
      niu.trace = [] ∧ niu.visited = [] ∧ niu.normSetWasEmpty = true ∧
      niu.arg = top ∧ (NIUdestroy niu fuelF).nodes = g.nodes := by
  exact ⟨_, construct_empty_eq g top fuel, addDummy_nodes g top, rfl, rfl, rfl,
    rfl, rfl, rfl, rfl, destroy_empty g top fuelF⟩

theorem isPdfN_true {g : Graph} {n : Nat} (h : g.isPdfN n = true) :
    ∃ info, alookup g.nodes n = some info ∧ info.isPdf = true := by
  unfold Graph.isPdfN Graph.infoOf at h
  cases halo : alookup g.nodes n with
  | none => rw [halo] at h; cases h
  | some info =>
    rw [halo] at h
    exact ⟨info, rfl, by simpa using h⟩

theorem addDummy_infoOf {g : Graph} {n : Nat} (top : Nat) {info : NodeInfo}
    (h : alookup g.nodes n = some info) :
    (addDummy g top).infoOf n = some info := by
  unfold Graph.infoOf
  rw [addDummy_nodes, alookup_append, h]

theorem updNode_no_cond {visited W : List Nat} {base : Nat}
    {p : Nat × NodeInfo} (hC : ¬(p.1 ∈ visited ∧ p.2.isCachedPdf = false)) :
    updNode visited W base p = p := by
  unfold updNode
  rw [List.map_congr_left (fun x _ => rewSubst_no_cond hC), List.map_id']

/-- C6 (idempotent wrapping): a self-normalized pdf node that is not of the
cached kind is never wrapped, however the construction went: it never enters
the replacement ledger, its would-be wrapper identity appears neither among
the graph's nodes nor in `newArgs`, and every original node's server list
holds exactly the same occurrences of it as before. -/
theorem c6_selfnormalized_never_wrapped (g : Graph) (top : Nat) (ns : List Nat)
    (fuel : Nat) (niu : NormalizationIntegralUnfolder) (n : Nat)
    (h : NIUconstruct g top ns fuel = .ok niu)
    (hn : g.isPdfN n = true) (hsn : g.selfNormalizedN n = true)
    (hnc : g.isCachedPdfN n = false) :
    n ∉ niu.replacedArgs ∧ niuWid g top n ∉ niu.graph.nodes.map Prod.fst ∧
      niuWid g top n ∉ niu.newArgs ∧
      (∀ p ∈ g.nodes, ∃ info', (p.1, info') ∈ niu.graph.nodes ∧
        (n ∈ info'.servers ↔ n ∈ p.2.servers)) := by
  obtain ⟨info, hinfo, hipdf⟩ := isPdfN_true hn
  have hnkey : n ≤ g.maxId :=
    mem_allIds_le_maxId (key_mem_allIds (alookup_mem hinfo))
  have hnwid : g.maxId < niuWid g top n := by
    unfold niuWid
    have := addDummy_d_le_maxId g top
    omega
  by_cases hne : ns = []
  · subst hne
    rw [construct_empty_eq] at h
    simp only [Except.ok.injEq] at h
    subst h
    refine ⟨by exact List.not_mem_nil n, ?_, by exact List.not_mem_nil _, ?_⟩
    · show niuWid g top n ∉ (addDummy g top).nodes.map Prod.fst
      rw [← alookup_isSome, keys_none_of_gt ?_]
      · simp
      · unfold niuWid
        omega
    · intro p hp
      refine ⟨p.2, ?_, Iff.rfl⟩
      show (p.1, p.2) ∈ (addDummy g top).nodes
      rw [addDummy_nodes]
      exact List.mem_append_left _ hp
  · obtain ⟨c1, c2, c3, _, _, c6, _, _, _, _, _, _⟩ := construct_shape hne h
    have hg1sn : (addDummy g top).selfNormalizedN n = true := by
      unfold Graph.selfNormalizedN
      rw [addDummy_infoOf top hinfo]
      unfold Graph.selfNormalizedN Graph.infoOf at hsn
      rw [hinfo] at hsn
      simpa using hsn
    have hg1nc : (addDummy g top).isCachedPdfN n = false := by
      unfold Graph.isCachedPdfN
      rw [addDummy_infoOf top hinfo]
      unfold Graph.isCachedPdfN Graph.infoOf at hnc
      rw [hinfo] at hnc
      simpa using hnc
    have htoW : toWrap (addDummy g top) niu.normSets n = false := by
      unfold toWrap
      rw [hg1sn, hg1nc]
      simp
    have hnW : n ∉ niu.visited.filter (toWrap (addDummy g top) niu.normSets) := by
      intro hmem
      rw [List.mem_filter, htoW] at hmem
      cases hmem.2
    have hnb : n < (addDummy g top).maxId + 1 := by
      have := addDummy_maxId_ge g top (key_mem_allIds (alookup_mem hinfo))
      omega
    refine ⟨c2 ▸ hnW, ?_, ?_, ?_⟩
    · rw [c1]
      intro hmem
      rw [List.map_append, List.mem_append] at hmem
      rcases hmem with hmem | hmem
      · rw [List.map_map] at hmem
        rcases List.mem_map.1 hmem with ⟨q, hq, hqe⟩
        have : q.1 ≤ (addDummy g top).maxId :=
          mem_allIds_le_maxId (key_mem_allIds hq)
        have hq1 : q.1 = niuWid g top n := hqe
        unfold niuWid at hq1
        omega
      · unfold wrapNodes at hmem
        rw [List.map_map] at hmem
        rcases List.mem_map.1 hmem with ⟨o, ho, hoe⟩
        simp only [Function.comp] at hoe
        have : o = n := by
          unfold niuWid at hoe
          omega
        exact hnW (this ▸ ho)
    · rw [c3]
      intro hmem
      rcases List.mem_map.1 hmem with ⟨o, ho, hoe⟩
      have : o = n := by
        unfold niuWid at hoe
        omega
      exact hnW (this ▸ ho)
    · intro p hp
      have hp1 : p ∈ (addDummy g top).nodes := by
        rw [addDummy_nodes]
        exact List.mem_append_left _ hp
      refine ⟨(updNode niu.visited
        (niu.visited.filter (toWrap (addDummy g top) niu.normSets))
        ((addDummy g top).maxId + 1) p).2, ?_, ?_⟩
      · rw [c1]
        refine List.mem_append_left _ ?_
        exact List.mem_map.2 ⟨p, hp1, rfl⟩
      · constructor
        · intro hmem
          rcases List.mem_map.1 hmem with ⟨x, hx, heq⟩
          exact (rewSubst_eq_iff hnb hnW).1 heq ▸ hx
        · intro hmem
          exact List.mem_map.2 ⟨n, hmem, (rewSubst_eq_iff hnb hnW).2 rfl⟩

/-- Witness for C6 at a concrete graph with a self-normalized pdf. -/
theorem c6_witness : ∃ niu, NIUconstruct exG8 1 [0] 30 = .ok niu ∧
    1 ∉ niu.replacedArgs := by
  cases hc : NIUconstruct exG8 1 [0] 30 with
  | error e =>
    exfalso
    have hok : (NIUconstruct exG8 1 [0] 30).toOption.isSome = true := by decide
    rw [hc] at hok
    simp [Except.toOption] at hok
  | ok niu =>
    exact ⟨niu, rfl,
      (c6_selfnormalized_never_wrapped exG8 1 [0] 30 niu 1 hc
        (by decide) (by decide) (by decide)).1⟩

/-- C7 (client scoping): when a node `o` is wrapped, exactly the clients of
`o` that lie inside the visited set and are not cached pdfs are redirected:
such a client's rewritten server list drops `o` and holds the wrapper
instead, while every client outside the visited set and every cached-pdf
client keeps its entire node record — in particular its reference to `o` —
unchanged. -/
theorem c7_client_scoping (g : Graph) (top : Nat) (ns : List Nat) (fuel : Nat)
    (niu : NormalizationIntegralUnfolder) (o : Nat)
    (h : NIUconstruct g top ns fuel = .ok niu) (ho : o ∈ niu.replacedArgs) :
    ∀ p ∈ g.nodes,
      ((p.1 ∈ niu.visited ∧ p.2.isCachedPdf = false) →
        ∃ info', (p.1, info') ∈ niu.graph.nodes ∧
          (o ∈ p.2.servers → o ∉ info'.servers ∧ niuWid g top o ∈ info'.servers)) ∧
      ((p.1 ∉ niu.visited ∨ p.2.isCachedPdf = true) →
        (p.1, p.2) ∈ niu.graph.nodes) := by
  by_cases hne : ns = []
  · subst hne
    rw [construct_empty_eq] at h
    simp only [Except.ok.injEq] at h
    subst h
    exact absurd ho (List.not_mem_nil o)
  · obtain ⟨c1, c2, c3, _, _, c6, _, _, _, _, _, _⟩ := construct_shape hne h
    have hoW : o ∈ niu.visited.filter (toWrap (addDummy g top) niu.normSets) :=
      c2 ▸ ho
    have hob : o ≤ (addDummy g top).maxId := c6 o (List.mem_filter.1 hoW).1
    intro p hp
    have hp1 : p ∈ (addDummy g top).nodes := by
      rw [addDummy_nodes]
      exact List.mem_append_left _ hp
    constructor
    · intro hC
      refine ⟨(updNode niu.visited
        (niu.visited.filter (toWrap (addDummy g top) niu.normSets))
        ((addDummy g top).maxId + 1) p).2, ?_, ?_⟩
      · rw [c1]
        exact List.mem_append_left _ (List.mem_map.2 ⟨p, hp1, rfl⟩)
      · intro hos
        constructor
        · intro hmem
          rcases List.mem_map.1 hmem with ⟨x, hx, heq⟩
          unfold rewSubst at heq
          split at heq
          · rename_i hcond
            have : x ≤ (addDummy g top).maxId :=
              mem_allIds_le_maxId (server_mem_allIds hp1 hx)
            omega
          · rename_i hcond
            subst heq
            exact hcond ⟨hoW, hC.1, hC.2⟩
        · refine List.mem_map.2 ⟨o, hos, ?_⟩
          unfold rewSubst
          rw [if_pos ⟨hoW, hC.1, hC.2⟩]
          rfl
    · intro hnC
      have hC : ¬(p.1 ∈ niu.visited ∧ p.2.isCachedPdf = false) := by
        rcases hnC with hnv | hcached
        · exact fun hc => hnv hc.1
        · exact fun hc => by rw [hcached] at hc; cases hc.2
      have : (p.1, p.2) = updNode niu.visited
          (niu.visited.filter (toWrap (addDummy g top) niu.normSets))
          ((addDummy g top).maxId + 1) p := (updNode_no_cond hC).symm
      rw [c1, this]
      exact List.mem_append_left _ (List.mem_map.2 ⟨p, hp1, rfl⟩)

/-- Witness for C7: in `exG7`, wrapping pdf `1` redirects its visited client
`2` to the wrapper. -/
theorem c7_witness : ∃ niu info', NIUconstruct exG7 2 [0] 30 = .ok niu ∧
    (2, info') ∈ niu.graph.nodes ∧ 1 ∉ info'.servers ∧
      niuWid exG7 2 1 ∈ info'.servers := by
  cases hc : NIUconstruct exG7 2 [0] 30 with
  | error e =>
    exfalso
    have hok : (NIUconstruct exG7 2 [0] 30).toOption.isSome = true := by decide
    rw [hc] at hok
    simp [Except.toOption] at hok
  | ok niu =>
    have ho : 1 ∈ niu.replacedArgs := by
      have hx : (NIUconstruct exG7 2 [0] 30).toOption.map
          (fun q => q.replacedArgs) = some [1] := by decide
      rw [hc] at hx
      simp [Except.toOption] at hx
      simp [hx]
    have hv : 2 ∈ niu.visited := by
      have hx : (NIUconstruct exG7 2 [0] 30).toOption.map
          (fun q => q.visited) = some [3, 2, 1, 0] := by decide
      rw [hc] at hx
      simp [Except.toOption] at hx
      simp [hx]
    have hp : (2, (⟨[1], false, false, false, true, false⟩ : NodeInfo)) ∈
        exG7.nodes := by decide
    obtain ⟨info', hmem, himpl⟩ :=
      (c7_client_scoping exG7 2 [0] 30 niu 1 hc ho _ hp).1 ⟨hv, rfl⟩
    obtain ⟨h1, h2⟩ := himpl (by decide)
    exact ⟨niu, info', rfl, hmem, h1, h2⟩

/-- C8 counterexample: in `exG8` the single pdf is self-normalized and not
cached, so it receives no wrapper (`newArgs` and `replacedArgs` stay empty),
yet the `getVal(currNormSet)` cache-materialization side effect is recorded
for it — the source performs that call before the self-normalized skip, so
the side effect is not restricted to nodes that receive a wrapper, refuting
the claim as stated. -/
theorem c8_counterexample :
    (NIUconstruct exG8 1 [0] 30).toOption.map
      (fun niu => (niu.evalTrace, niu.newArgs, niu.replacedArgs)) =
      some ([(1, [0])], [], []) ∧
    exG8.selfNormalizedN 1 = true ∧ exG8.isCachedPdfN 1 = false := by
  refine ⟨by decide, by decide, by decide⟩

/-- C8 (amended): the cache-materialization side effect is performed exactly
once for every visited pdf-like node whose narrowed normalization set is
non-empty — regardless of whether the self-normalized rule then skips the
wrapping — and for no other node. -/
theorem c8_eval_side_effect (g : Graph) (top : Nat) (ns : List Nat)
    (fuel : Nat) (niu : NormalizationIntegralUnfolder)
    (h : NIUconstruct g top ns fuel = .ok niu) :
    niu.evalTrace =
      (niu.visited.filter (evalPred (addDummy g top) niu.normSets)).map
        (fun o => (o, (alookup niu.normSets o).getD [])) := by
  by_cases hne : ns = []
  · subst hne
    rw [construct_empty_eq] at h
    simp only [Except.ok.injEq] at h
    subst h
    rfl
  · exact (construct_shape hne h).2.2.2.1

/-- Witness for the amended C8 at `exG8`. -/
theorem c8_witness : ∃ niu, NIUconstruct exG8 1 [0] 30 = .ok niu ∧
    niu.evalTrace =
      (niu.visited.filter (evalPred (addDummy exG8 1) niu.normSets)).map
        (fun o => (o, (alookup niu.normSets o).getD [])) := by
  cases hc : NIUconstruct exG8 1 [0] 30 with
  | error e =>
    exfalso
    have hok : (NIUconstruct exG8 1 [0] 30).toOption.isSome = true := by decide
    rw [hc] at hok
    simp [Except.toOption] at hok
  | ok niu =>
    exact ⟨niu, rfl, c8_eval_side_effect exG8 1 [0] 30 niu hc⟩

/-- C9 counterexample: in the diamond `exG9` (all nodes non-pdf), the
propagation traversal descends into the shared node `3` (and its server `0`)
twice — the skip-if-already-visited rule is keyed on the normalization-set
table, which only pdf-like nodes enter, so the descent trace
`[5, 4, 1, 3, 0, 2, 3, 0]` has duplicates, refuting the claim as stated. -/
theorem c9_counterexample :
    (NIUconstruct exG9 4 [7] 30).toOption.map (fun niu => niu.trace) =
      some [5, 4, 1, 3, 0, 2, 3, 0] ∧
    ¬ ([5, 4, 1, 3, 0, 2, 3, 0] : List Nat).Nodup := by
  refine ⟨by decide, by decide⟩

/-- C9 (amended): the propagation traversal descends at most once into each
pdf-like node (their normalization-set entry blocks re-entry); non-pdf nodes
may be descended once per arriving path. -/
theorem c9_pdf_visited_once (g : Graph) (top : Nat) (ns : List Nat)
    (fuel : Nat) (niu : NormalizationIntegralUnfolder)
    (h : NIUconstruct g top ns fuel = .ok niu) :
    (niu.trace.filter (fun n => (addDummy g top).isPdfN n)).Nodup := by
  by_cases hne : ns = []
  · subst hne
    rw [construct_empty_eq] at h
    simp only [Except.ok.injEq] at h
    subst h
    simp
  · exact (construct_shape hne h).2.2.2.2.2.2.2.2.2.1

/-- Witness for the amended C9 at `exG9`. -/
theorem c9_witness : ∃ niu, NIUconstruct exG9 4 [7] 30 = .ok niu ∧
    (niu.trace.filter (fun n => (addDummy exG9 4).isPdfN n)).Nodup := by
  cases hc : NIUconstruct exG9 4 [7] 30 with
  | error e =>
    exfalso
    have hok : (NIUconstruct exG9 4 [7] 30).toOption.isSome = true := by decide
    rw [hc] at hok
    simp [Except.toOption] at hok
  | ok niu =>
    exact ⟨niu, rfl, c9_pdf_visited_once exG9 4 [7] 30 niu hc⟩

/-- C5 (reachability correctness): over the GraphChecker's snapshot of an
acyclic graph (acyclicity witnessed by the rank function `rk`, snapshot
coverage by `rk top < fuelB`), every completed `dependsOn` query — starting
from any correct memo state — answers `true` exactly when the target is
reachable from the queried node by zero or more server edges (reflexive
case included), and it leaves the memo table correct, so that arbitrary
query sequences stay correct. -/
theorem c5_dependson_iff_reachable (g : Graph) (rk : Nat → Nat)
    (fuelB fuelD top A B : Nat) (memo : Memo) (r : Bool) (m' : Memo)
    (hWF : GraphWF g) (hrk : RankedG g rk) (hfuel : rk top < fuelB)
    (hA : A ∈ (buildServerLists g fuelB top).map Prod.fst)
    (hm : MemoGood g memo)
    (hrun : dependsOnAux (buildServerLists g fuelB top) fuelD A B memo
      = .ok (r, m')) :
    (r = true ↔ ReachAll g A B) ∧ MemoGood g m' := by
  have hres := dependsOn_spec g (buildServerLists g fuelB top)
    (fun a l hl s => buildSL_faithful g fuelB top hl s)
    (buildSL_closed g hWF hrk hfuel) fuelD A B memo r m' hA hm hrun
  exact ⟨hres.2, hres.1⟩

/-- Witness for C5 on the diamond: `dependsOn 0 3` is true and
`dependsOn 3 0` is false, matching reachability. -/
theorem c5_witness : ReachAll exG5 0 3 ∧ ¬ ReachAll exG5 3 0 := by
  have h1 := c5_dependson_iff_reachable exG5 (fun n => 3 - n) 5 20 0 0 3 []
    true [((1, 3), true)] (by unfold GraphWF; decide) (by unfold RankedG; decide)
    (by decide) (by decide) (memoGood_nil _) rfl
  have h2 := c5_dependson_iff_reachable exG5 (fun n => 3 - n) 5 20 0 3 0 []
    false [((3, 0), false)] (by unfold GraphWF; decide)
    (by unfold RankedG; decide) (by decide) (by decide) (memoGood_nil _)
    rfl
  refine ⟨h1.1.1 rfl, fun hr => ?_⟩
  cases h2.1.2 hr

/-- C10 (implicit; total reachability queries): the GraphChecker server-list
map built over an acyclic graph with sufficient traversal depth is
transitively closed — every server recorded in any node's list is itself a
key — and consequently, for every query starting at a snapshot node, every
`_serverLists.at` lookup performed along the recursion succeeds: the
missing-key error branch is unreachable (for any recursion depth and memo
state). -/
theorem c10_serverlists_closed (g : Graph) (rk : Nat → Nat) (fuelB top : Nat)
    (hWF : GraphWF g) (hrk : RankedG g rk) (hfuel : rk top < fuelB) :
    (∀ n l, alookup (buildServerLists g fuelB top) n = some l →
      ∀ s ∈ l, s ∈ (buildServerLists g fuelB top).map Prod.fst) ∧
    (∀ A ∈ (buildServerLists g fuelB top).map Prod.fst, ∀ B fuelD memo,
      dependsOnAux (buildServerLists g fuelB top) fuelD A B memo ≠
        .error .missingKey) := by
  refine ⟨buildSL_closed g hWF hrk hfuel, ?_⟩
  intro A hA B fuelD memo
  exact dependsOn_no_missingKey _ (buildSL_closed g hWF hrk hfuel) fuelD A B
    memo hA

/-- Witness for C10 at the diamond snapshot. -/
theorem c10_witness : dependsOnAux (buildServerLists exG5 5 0) 20 0 3 [] ≠
    .error .missingKey :=
  (c10_serverlists_closed exG5 (fun n => 3 - n) 5 0 (by unfold GraphWF; decide)
    (by unfold RankedG; decide) (by decide)).2 0 (by decide) 3 20 []

/-! ## Classification of the non-conflict failure modes -/

theorem depLoop_err (step : Nat → Memo → Except Err (Bool × Memo))
    (arg testArg : Nat) (P : Err → Prop)
    (hstep : ∀ s m er, step s m = .error er → P er) :
    ∀ l memo er, depLoop step arg testArg l memo = .error er → P er := by
  intro l
  induction l with
  | nil => intro memo er h; cases h
  | cons s rest ih =>
    intro memo er h
    rw [depLoop] at h
    cases hs : step s memo with
    | error e =>
      simp only [hs] at h
      cases h
      exact hstep s memo er (by rw [hs])
    | ok tm =>
      obtain ⟨t, m1⟩ := tm
      simp only [hs] at h
      cases t with
      | true => simp at h
      | false =>
        simp only [Bool.false_eq_true, if_false] at h
        exact ih _ er h

theorem dependsOnAux_err (sl : List (Nat × List Nat)) :
    ∀ fuel a b memo er, dependsOnAux sl fuel a b memo = .error er →
      er = .fuelOut ∨ er = .missingKey := by
  intro fuel
  induction fuel with
  | zero =>
    intro a b memo er h
    cases h
    exact Or.inl rfl
  | succ fuel ih =>
    intro a b memo er h
    rw [dependsOnAux] at h
    cases hfind : memoFind memo (a, b) with
    | some v => simp only [hfind] at h; cases h
    | none =>
      simp only [hfind] at h
      by_cases hab : a = b
      · rw [if_pos hab] at h; cases h
      · rw [if_neg hab] at h
        cases hsl : alookup sl a with
        | none =>
          simp only [hsl] at h
          cases h
          exact Or.inr rfl
        | some serverList =>
          simp only [hsl] at h
          by_cases hb : b ∈ serverList
          · rw [if_pos hb] at h; cases h
          · rw [if_neg hb] at h
            exact depLoop_err _ a b (fun er => er = .fuelOut ∨ er = .missingKey)
              (fun s m er' hr => ih s b m er' hr) serverList memo er h

theorem filterNorm_err (sl : List (Nat × List Nat)) (fuel : Nat)
    (visited : List Nat) (n : Nat) :
    ∀ vlist memo er, filterNorm sl fuel visited n vlist memo = .error er →
      ∀ e, er ≠ .conflict e := by
  intro vlist
  induction vlist with
  | nil => intro memo er h; cases h
  | cons v vs ih =>
    intro memo er h e
    rw [filterNorm] at h
    cases hdep : dependsOnAux sl fuel n v memo with
    | error e' =>
      simp only [hdep] at h
      cases h
      rcases dependsOnAux_err sl fuel n v memo er hdep with h' | h' <;>
        (subst h'; intro hc; cases hc)
    | ok tm =>
      obtain ⟨t, memo1⟩ := tm
      simp only [hdep] at h
      cases hrec : filterNorm sl fuel visited n vs memo1 with
      | error e' =>
        simp only [hrec] at h
        cases h
        exact ih memo1 er hrec e
      | ok vm =>
        obtain ⟨vs0, m2⟩ := vm
        simp only [hrec] at h
        cases t with
        | true =>
          simp only [if_pos rfl] at h
          cases hfi : findIn visited v with
          | none =>
            simp only [hfi] at h
            cases h
            intro hc
            cases hc
          | some v' =>
            simp only [hfi] at h
            split at h <;> cases h
        | false =>
          simp only [Bool.false_eq_true, if_false] at h
          cases h

theorem narrowLoop_err (sl : List (Nat × List Nat)) (fuel : Nat)
    (visited : List Nat) :
    ∀ ns memo er, narrowLoop sl fuel visited ns memo = .error er →
      ∀ e, er ≠ .conflict e := by
  intro ns
  induction ns with
  | nil => intro memo er h; cases h
  | cons p rest ih =>
    obtain ⟨k, s0⟩ := p
    intro memo er h e
    rw [narrowLoop] at h
    by_cases hz : s0 = []
    · rw [if_pos hz] at h
      cases hrec : narrowLoop sl fuel visited rest memo with
      | error e' =>
        simp only [hrec] at h
        cases h
        exact ih memo er hrec e
      | ok rm =>
        obtain ⟨rest', memo1⟩ := rm
        simp only [hrec] at h
        cases h
    · rw [if_neg hz] at h
      cases hfn : filterNorm sl fuel visited k s0 memo with
      | error e' =>
        simp only [hfn] at h
        cases h
        exact filterNorm_err sl fuel visited k s0 memo er hfn e
      | ok sm =>
        obtain ⟨s1, memo1⟩ := sm
        simp only [hfn] at h
        cases hrec : narrowLoop sl fuel visited rest memo1 with
        | error e' =>
          simp only [hrec] at h
          cases h
          exact ih memo1 er hrec e
        | ok rm =>
          obtain ⟨rest', memo2⟩ := rm
          simp only [hrec] at h
          cases h

theorem rewriteLoop_err (visited : List Nat) (ns : List (Nat × List Nat))
    (base : Nat) :
    ∀ rest st er, rewriteLoop visited ns base rest st = .error er →
      er = .missingNormSet := by
  intro rest
  induction rest with
  | nil => intro st er h; cases h
  | cons n rest ih =>
    intro st er h
    rw [rewriteLoop] at h
    by_cases hp : st.graph.isPdfN n = false
    · rw [if_pos hp] at h
      exact ih _ er h
    · rw [if_neg hp] at h
      cases halo : alookup ns n with
      | none =>
        simp only [halo] at h
        cases h
        rfl
      | some cns =>
        simp only [halo] at h
        by_cases hz : cns = []
        · rw [if_pos hz] at h
          exact ih _ er h
        · rw [if_neg hz] at h
          by_cases hskip : st.graph.selfNormalizedN n = true ∧
              st.graph.isCachedPdfN n = false
          · rw [if_pos hskip] at h
            exact ih _ er h
          · rw [if_neg hskip] at h
            exact ih _ er h

/-! ## C2: the conflict error -/

/-- C2 counterexample: `exG2A` and `exG2B` differ exactly in the identity of
the parent that first requested node `1`'s normalization set (`3` versus
`6`, each absent from the other graph), yet construction fails with the
*identical* conflict error in both (conflicting node `1`, demanded set
`[2]`, current requester `4`, recorded set `[0]`).  Hence the error cannot
report the first-requesting parent — the source prints only the fixed text
"first requested by other client" for it — refuting the claim that both
requesting parents are reported. -/
theorem c2_counterexample :
    NIUconstruct exG2A 5 [0] 30 = .error (.conflict ⟨1, [2], 4, [0]⟩) ∧
    NIUconstruct exG2B 5 [0] 30 = .error (.conflict ⟨1, [2], 4, [0]⟩) ∧
    (3, (⟨[1], false, false, false, true, false⟩ : NodeInfo)) ∈ exG2A.nodes ∧
    (3 : Nat) ∉ exG2B.nodes.map Prod.fst ∧
    (6, (⟨[1], false, false, false, true, false⟩ : NodeInfo)) ∈ exG2B.nodes ∧
    (6 : Nat) ∉ exG2A.nodes.map Prod.fst := by
  exact ⟨rfl, rfl, by decide, by decide, by decide, by decide⟩

/-- C2 (amended): when propagation finds a server whose recorded
normalization set is not set-equal to the demanded one, construction fails
with a conflict error carrying the node's identity, the demanded and the
recorded set both in canonical sorted form and genuinely different, and the
identity of the parent requesting the new set; the first requester is not
identified (the source prints only "other client" for it). -/
theorem c2_conflict_error_canonical (g : Graph) (top : Nat) (ns : List Nat)
    (fuel : Nat) (e : ConflictError)
    (h : NIUconstruct g top ns fuel = .error (.conflict e)) :
    List.Sorted (· ≤ ·) e.requestedSet ∧ List.Sorted (· ≤ ·) e.firstSet ∧
      e.requestedSet ≠ e.firstSet := by
  unfold NIUconstruct at h
  cases hout : unfoldIntegrals (addDummy g top) (g.maxId + 1) ns fuel with
  | ok out => simp [hout] at h
  | error er =>
    simp only [hout] at h
    cases h
    rw [unfoldIntegrals] at hout
    by_cases hne : ns = []
    · rw [if_pos hne] at hout
      cases hout
    · rw [if_neg hne] at hout
      cases htrav : treeNodeServerListAndNormSets (addDummy g top) fuel
          (g.maxId + 1) (ns.insertionSort (· ≤ ·)) ⟨[], [], []⟩ with
      | error et =>
        simp only [htrav] at hout
        cases hout
        exact treeNode_conflict fuel (g.maxId + 1) (ns.insertionSort (· ≤ ·))
          ⟨[], [], []⟩ e (List.sorted_insertionSort (· ≤ ·) ns)
          (by intro p hp; cases hp) htrav
      | ok st =>
        simp only [htrav] at hout
        cases hnarrow : narrowLoop (buildServerLists (addDummy g top) fuel
            (g.maxId + 1)) fuel st.list st.normSets [] with
        | error en =>
          simp only [hnarrow] at hout
          cases hout
          exact absurd rfl (narrowLoop_err _ fuel st.list st.normSets []
            (.conflict e) hnarrow e)
        | ok nm =>
          obtain ⟨ns', memo'⟩ := nm
          simp only [hnarrow] at hout
          cases hrew : rewriteLoop st.list ns' ((addDummy g top).maxId + 1)
              st.list ⟨addDummy g top, [], [], []⟩ with
          | error er2 =>
            simp only [hrew] at hout
            cases hout
            have := rewriteLoop_err st.list ns' ((addDummy g top).maxId + 1)
              st.list ⟨addDummy g top, [], [], []⟩ (.conflict e) hrew
            cases this
          | ok rst => simp only [hrew] at hout; cases hout

/-- Witness for the amended C2 at `exG2A`. -/
theorem c2_witness : List.Sorted (· ≤ ·) ([2] : List Nat) ∧
    List.Sorted (· ≤ ·) ([0] : List Nat) ∧ ([2] : List Nat) ≠ [0] :=
  c2_conflict_error_canonical exG2A 5 [0] 30 ⟨1, [2], 4, [0]⟩ rfl

/-- C4 (narrowing): for every node whose recorded normalization set `s` is
non-empty, the construction replaces it with exactly the subset of the
variables of `s` the node structurally depends on (`ReachAll`, the semantic
meaning of `checker.dependsOn`), every retained element being the canonical
instance found in the visited node list; and whenever the node gets a
wrapper, the wrapper is created with this narrowed set.  Acyclicity is
witnessed by the rank function `rk`, and `fuel` must cover the rank of the
aggregator node. -/
theorem c4_narrowed_sets (g : Graph) (rk : Nat → Nat) (top : Nat)
    (ns : List Nat) (fuel : Nat) (niu : NormalizationIntegralUnfolder)
    (n : Nat) (s : List Nat)
    (hWF : GraphWF (addDummy g top)) (hrk : RankedG (addDummy g top) rk)
    (hfuel : rk (g.maxId + 1) < fuel)
    (h : NIUconstruct g top ns fuel = .ok niu)
    (hpre : alookup niu.preNormSets n = some s) (hs : s ≠ []) :
    ∃ s', alookup niu.normSets n = some s' ∧
      (∀ v, v ∈ s' ↔ v ∈ s ∧ ReachAll (addDummy g top) n v) ∧
      (∀ v ∈ s', v ∈ niu.visited) ∧
      (toWrap (addDummy g top) niu.normSets n = true →
        (niuWid g top n, wrapperInfo n s') ∈ niu.graph.nodes) := by
  obtain ⟨s', hs', hrel⟩ := construct_narrow hWF hrk hfuel h n s hpre
  rcases hrel with ⟨hz, _⟩ | ⟨_, hiff, hsub⟩
  · exact absurd hz hs
  refine ⟨s', hs', hiff, hsub, ?_⟩
  intro hw
  have hne : ns ≠ [] := by
    intro hz
    subst hz
    rw [construct_empty_eq] at h
    simp only [Except.ok.injEq] at h
    subst h
    exact Option.noConfusion hpre
  obtain ⟨c1, -, -, -, -, -, -, c8, -, -, -, -⟩ := construct_shape hne h
  have hnk : n ∈ niu.preNormSets.map Prod.fst := by
    rw [← alookup_isSome, hpre]; rfl
  have hnv : n ∈ niu.visited := ((c8 n).1 hnk).1
  have hnW : n ∈ niu.visited.filter (toWrap (addDummy g top) niu.normSets) :=
    List.mem_filter.2 ⟨hnv, hw⟩
  rw [c1]
  refine List.mem_append_right _ ?_
  unfold wrapNodes
  refine List.mem_map.2 ⟨n, hnW, ?_⟩
  simp only [hs', niuWid, Option.getD_some]

/-- Witness for C4 at `exG1` with requested set `[0, 3]`: the pdf `1`
depends on `0` but not on the spurious `3`, so its narrowed set drops `3`,
and the wrapper is created with the narrowed set. -/
theorem c4_witness : ∃ niu s', NIUconstruct exG1 1 [0, 3] 30 = .ok niu ∧
    alookup niu.preNormSets 1 = some [0, 3] ∧
    alookup niu.normSets 1 = some s' ∧
    (0 : Nat) ∈ s' ∧ (3 : Nat) ∉ s' ∧ (∀ v ∈ s', v ∈ niu.visited) ∧
    (niuWid exG1 1 1, wrapperInfo 1 s') ∈ niu.graph.nodes := by
  cases hc : NIUconstruct exG1 1 [0, 3] 30 with
  | error e =>
    exfalso
    have hok : (NIUconstruct exG1 1 [0, 3] 30).toOption.isSome = true := by decide
    rw [hc] at hok
    simp [Except.toOption] at hok
  | ok niu =>
    have hpre : alookup niu.preNormSets 1 = some [0, 3] := by
      have h2 : (NIUconstruct exG1 1 [0, 3] 30).toOption.map
          (fun u => alookup u.preNormSets 1) = some (some [0, 3]) := by decide
      rw [hc] at h2
      simp [Except.toOption] at h2
      exact h2
    have hrk : RankedG (addDummy exG1 1) (fun m => m) := by
      unfold RankedG; decide
    obtain ⟨s', h1, h2, h3, h4⟩ := c4_narrowed_sets exG1 (fun m => m) 1 [0, 3]
      30 niu 1 [0, 3] (by unfold GraphWF; decide) hrk (by decide) hc hpre
      (by decide)
    have hw : toWrap (addDummy exG1 1) niu.normSets 1 = true := by
      have h5 : (NIUconstruct exG1 1 [0, 3] 30).toOption.map
          (fun u => toWrap (addDummy exG1 1) u.normSets 1) = some true := by
        decide
      rw [hc] at h5
      simp [Except.toOption] at h5
      exact h5
    refine ⟨niu, s', rfl, hpre, h1, ?_, ?_, h3, h4 hw⟩
    · refine (h2 0).2 ⟨by decide, ?_⟩
      have he : (0 : Nat) ∈ (addDummy exG1 1).serversOf 1 := by decide
      exact Relation.ReflTransGen.single he
    · intro h3mem
      have hr : ReachAll (addDummy exG1 1) 1 3 := ((h2 3).1 h3mem).2
      have hN : reachN (addDummy exG1 1) 30 1 3 = true :=
        reachN_of_reach hrk hr (by decide)
      exact absurd hN (by decide)

end NormHelpers
